import Mathlib

/-!
Verification development for the `elysia` agent library (Go).

The definitions below are a shallow embedding of the library's core:
the JSON value model shared by tool arguments and structured output,
the prompted-mode JSON extractor (`ExtractJSON`, `findMatchingBrace`),
the response-format engine (`ExtractStructuredContent`), the streaming
accumulator (`MessageAccumulator`), the stream reassembly helper
(`StreamWithHandler`), the tool invocation wrapper (`validateAndExecute`
from `NewTool`), and the agent run loop (`Run`).

Conventions used throughout:
- Go strings are modelled as `String` / `List Char`; byte indexes computed
  by the Go code are always indexes of ASCII runes, so character positions
  coincide with them.
- Go's `map[string]any` holding a decoded JSON object is modelled by the
  ordered field list `JObj`; Go's `map[string]int` / `map[int]*T` are
  modelled as association lists with lookup defaulting to the zero value,
  mirroring Go map semantics (iteration order is only consumed after an
  explicit sort, as in the source).
- Go errors are modelled with `Option`/`Except`; a Go `(value, error)`
  pair with `error == nil` is the `ok` case.
-/

namespace Elysia

/-! ## JSON value model

Go decodes JSON into `map[string]any` / `[]any` / `string` / `float64` /
`bool` / `nil`.  The model restricts numbers to integers (the claims under
verification do not depend on non-integral numbers). -/

mutual

inductive Json : Type where
  | null : Json
  | bool (b : Bool) : Json
  | num (n : Int) : Json
  | str (s : String) : Json
  | arr (xs : JArr) : Json
  | obj (fs : JObj) : Json

inductive JArr : Type where
  | nil : JArr
  | cons (hd : Json) (tl : JArr) : JArr

inductive JObj : Type where
  | nil : JObj
  | cons (key : String) (val : Json) (tl : JObj) : JObj

end

/-! ## Decimal digits (model of Go's integer formatting in `encoding/json`) -/

def decDigit (n : Nat) : Char := Char.ofNat (48 + n)

def isDigitChar (c : Char) : Bool := 48 ≤ c.toNat && c.toNat ≤ 57

def natDigitsGo : Nat → Nat → List Char
  | 0, _ => []
  | fuel + 1, n => if n < 10 then [decDigit n] else natDigitsGo fuel (n / 10) ++ [decDigit (n % 10)]

def natDigits (n : Nat) : List Char := natDigitsGo (n + 1) n

def encInt (n : Int) : List Char :=
  if n < 0 then '-' :: natDigits n.natAbs else natDigits n.toNat

/-- Reads a maximal run of decimal digits, folding them onto `acc`. -/
def readDigits : List Char → Nat → Nat × List Char
  | [], acc => (acc, [])
  | c :: cs, acc =>
    if isDigitChar c then readDigits cs (acc * 10 + (c.toNat - 48)) else (acc, c :: cs)

/-! ## String escaping (model of Go's JSON string encoding for the characters
the library round-trips; quotes and backslashes are escaped, other characters
pass through) -/

def escChars : List Char → List Char
  | [] => []
  | c :: cs => if c = '"' ∨ c = '\\' then '\\' :: c :: escChars cs else c :: escChars cs

def encStrChars (s : String) : List Char := '"' :: (escChars s.data ++ ['"'])

/-! ## JSON encoder (model of `encoding/json.Marshal` output shape: no
whitespace, fields in stored order) -/

mutual

def encJson : Json → List Char
  | Json.null => ['n', 'u', 'l', 'l']
  | Json.bool true => ['t', 'r', 'u', 'e']
  | Json.bool false => ['f', 'a', 'l', 's', 'e']
  | Json.num n => encInt n
  | .str s => encStrChars s
  | .arr xs => '[' :: (encArr xs ++ [']'])
  | .obj fs => '{' :: (encObj fs ++ ['}'])

def encArr : JArr → List Char
  | .nil => []
  | .cons v .nil => encJson v
  | .cons v tl => encJson v ++ ',' :: encArr tl

def encObj : JObj → List Char
  | .nil => []
  | .cons k v .nil => encStrChars k ++ ':' :: encJson v
  | .cons k v tl => encStrChars k ++ ':' :: encJson v ++ ',' :: encObj tl

end

/-! ## Whitespace and trimming (model of `strings.TrimSpace` on the
whitespace the library actually meets) -/

def isWsChar (c : Char) : Bool := c = ' ' || c = '\t' || c = '\n' || c = '\r'

def skipWs : List Char → List Char
  | [] => []
  | c :: cs => if isWsChar c then skipWs cs else c :: cs

def trimChars (l : List Char) : List Char := (skipWs (skipWs l).reverse).reverse

/-! ## JSON parser (model of `encoding/json` decoding, used by the
spec-modelled `isValidJSON` and by decoding steps; fuel-indexed so that all
definitions stay structurally recursive and kernel-evaluable) -/

def parseStrBody : List Char → Option (List Char × List Char)
  | [] => none
  | c :: cs =>
    if c = '"' then some ([], cs)
    else if c = '\\' then
      match cs with
      | [] => none
      | e :: cs' =>
        if e = '"' ∨ e = '\\' then (parseStrBody cs').map (fun p => (e :: p.1, p.2)) else none
    else (parseStrBody cs).map (fun p => (c :: p.1, p.2))

def dropLit : List Char → List Char → Option (List Char)
  | [], cs => some cs
  | _ :: _, [] => none
  | p :: ps, c :: cs => if c = p then dropLit ps cs else none

mutual

def parseVal : Nat → List Char → Option (Json × List Char)
  | 0, _ => none
  | fuel + 1, cs =>
    match skipWs cs with
    | [] => none
    | c :: cs' =>
      if c = 'n' then (dropLit ['u', 'l', 'l'] cs').map (fun r => (Json.null, r))
      else if c = 't' then (dropLit ['r', 'u', 'e'] cs').map (fun r => (Json.bool true, r))
      else if c = 'f' then (dropLit ['a', 'l', 's', 'e'] cs').map (fun r => (Json.bool false, r))
      else if c = '"' then (parseStrBody cs').map (fun p => (Json.str ⟨p.1⟩, p.2))
      else if c = '[' then
        match skipWs cs' with
        | d :: r => if d = ']' then some (Json.arr .nil, r)
                    else (parseItems fuel cs').map (fun q => (Json.arr q.1, q.2))
        | [] => none
      else if c = '{' then
        match skipWs cs' with
        | d :: r => if d = '}' then some (Json.obj .nil, r)
                    else (parseFields fuel cs').map (fun q => (Json.obj q.1, q.2))
        | [] => none
      else if c = '-' then
        match cs' with
        | d :: _ => if isDigitChar d then
                      let p := readDigits cs' 0
                      some (Json.num (-(p.1 : Int)), p.2)
                    else none
        | [] => none
      else if isDigitChar c then
        let p := readDigits (c :: cs') 0
        some (Json.num (p.1 : Int), p.2)
      else none

def parseItems : Nat → List Char → Option (JArr × List Char)
  | 0, _ => none
  | fuel + 1, cs =>
    match parseVal fuel cs with
    | none => none
    | some p =>
      match skipWs p.2 with
      | c :: r =>
        if c = ',' then (parseItems fuel r).map (fun q => (JArr.cons p.1 q.1, q.2))
        else if c = ']' then some (JArr.cons p.1 .nil, r)
        else none
      | [] => none

def parseFields : Nat → List Char → Option (JObj × List Char)
  | 0, _ => none
  | fuel + 1, cs =>
    match skipWs cs with
    | c :: cs' =>
      if c = '"' then
        match parseStrBody cs' with
        | none => none
        | some pk =>
          match skipWs pk.2 with
          | d :: r1 =>
            if d = ':' then
              match parseVal fuel r1 with
              | none => none
              | some pv =>
                match skipWs pv.2 with
                | e :: r2 =>
                  if e = ',' then
                    (parseFields fuel r2).map (fun q => (JObj.cons ⟨pk.1⟩ pv.1 q.1, q.2))
                  else if e = '}' then some (JObj.cons ⟨pk.1⟩ pv.1 .nil, r2)
                  else none
                | [] => none
            else none
          | [] => none
      else none
    | [] => none

end

/-- Top-level JSON decode of a character sequence: one value, followed only
by whitespace. -/
def parseJson (l : List Char) : Option Json :=
  match parseVal (l.length + 1) l with
  | some (v, r) => if skipWs r = [] then some v else none
  | none => none

/-- Modelled from the spec: `isValidJSON` (used by `ExtractJSON`, not under
`src/`) checks whether a string is a syntactically valid JSON value. -/
def isValidJSON (l : List Char) : Bool := (parseJson l).isSome

/-! ## `findMatchingBrace` (port of `types/response_format.go`)

The scanner walks runes carrying `depth` (a Go `int`, so modelled as `Int`:
it may go negative), `inString` and `escape` flags, and returns the index of
the rune that brings `depth` to zero. -/

def findMBAux (oc cc : Char) : List Char → Int → Bool → Bool → Nat → Option Nat
  | [], _, _, _, _ => none
  | c :: cs, depth, inStr, esc, i =>
    if esc then findMBAux oc cc cs depth inStr false (i + 1)
    else if c = '\\' ∧ inStr = true then findMBAux oc cc cs depth inStr true (i + 1)
    else if c = '"' then findMBAux oc cc cs depth (!inStr) false (i + 1)
    else if inStr then findMBAux oc cc cs depth inStr false (i + 1)
    else if c = oc then findMBAux oc cc cs (depth + 1) inStr false (i + 1)
    else if c = cc then
      if depth - 1 = 0 then some i else findMBAux oc cc cs (depth - 1) inStr false (i + 1)
    else findMBAux oc cc cs depth inStr false (i + 1)

def findMatchingBrace (s : List Char) (oc cc : Char) : Option Nat :=
  findMBAux oc cc s 0 false false 0

/-! ## `ExtractJSON` (port of `types/response_format.go`) -/

/-- Index of the first occurrence of character `c` (Go `strings.Index` on a
one-rune needle; `none` models `-1`). -/
def idxOf : List Char → Char → Option Nat
  | [], _ => none
  | x :: xs, c => if x = c then some 0 else (idxOf xs c).map (· + 1)

/-- Index of the first occurrence of the pattern `pat` as a contiguous run. -/
def findSub : List Char → List Char → Option Nat
  | [], pat => if pat.isEmpty then some 0 else none
  | l@(_ :: xs), pat => if pat.isPrefixOf l then some 0 else (findSub xs pat).map (· + 1)

def backtickFence : List Char := ['`', '`', '`']

/-- Model of the Go regular expression
    (three backticks)(?:json)?\s*([\s\S]*?)(three backticks)
applied with `FindStringSubmatch`: locate the first fence, optionally skip a
literal `json`, skip whitespace greedily, and capture lazily up to the next
fence.  (When the full pattern has no match anywhere, the result is `none`;
a later fence can only serve as an opener if some closing fence follows it,
which the earlier opener would already have matched.) -/
def extractFenced (text : List Char) : Option (List Char) :=
  match findSub text backtickFence with
  | none => none
  | some j =>
    let after := text.drop (j + 3)
    let after := match dropLit ['j', 's', 'o', 'n'] after with
      | some r => r
      | none => after
    let after := skipWs after
    match findSub after backtickFence with
    | none => none
    | some k => some (after.take k)

/-- Port of `ExtractJSON`: try the trimmed text as-is, then the first fenced
code block, then the first balanced brace/bracket span; `none` models the
"no valid JSON found" error. -/
def ExtractJSON (text0 : List Char) : Option (List Char) :=
  let text := trimChars text0
  if isValidJSON text then some text
  else
    let fenced := match extractFenced text with
      | some m =>
        let cand := trimChars m
        if isValidJSON cand then some cand else none
      | none => none
    match fenced with
    | some cand => some cand
    | none =>
      let startObj := idxOf text '{'
      let startArr := idxOf text '['
      let pick : Option (Nat × Char × Char) :=
        match startObj, startArr with
        | some o, some a => if o < a then some (o, '{', '}') else some (a, '[', ']')
        | some o, none => some (o, '{', '}')
        | none, some a => some (a, '[', ']')
        | none, none => none
      match pick with
      | none => none
      | some (st, oc, cc) =>
        match findMatchingBrace (text.drop st) oc cc with
        | none => none
        | some e =>
          let cand := (text.drop st).take (e + 1)
          if isValidJSON cand then some cand else none

/-- The value folded by `readDigits` along a digit list. -/
def foldDigits (a : Nat) (ds : List Char) : Nat :=
  ds.foldl (fun acc c => acc * 10 + (c.toNat - 48)) a

/-! ## Sizes (fuel bounds for the parser) -/

mutual

def jsize : Json → Nat
  | .null => 1
  | .bool _ => 1
  | .num _ => 1
  | .str _ => 1
  | .arr xs => jsizeA xs + 1
  | .obj fs => jsizeO fs + 1

def jsizeA : JArr → Nat
  | .nil => 0
  | .cons v tl => jsize v + jsizeA tl + 1

def jsizeO : JObj → Nat
  | .nil => 0
  | .cons _ v tl => jsize v + jsizeO tl + 1

end

/-! ## Tails of encoded sequences -/

def encArrTail : JArr → List Char
  | .nil => []
  | tl => ',' :: encArr tl

def encObjTail : JObj → List Char
  | .nil => []
  | tl => ',' :: encObj tl

/-- The character after a complete element inside an encoded array/object is
never a digit, so number parsing stops at the right place. -/
def delimOk : Json → List Char → Prop
  | .num _, c :: _ => isDigitChar c = false
  | _, _ => True

def safeChar (c : Char) : Bool :=
  !(c = '\\' || c = '"' || c = '{' || c = '}' || c = '[' || c = ']')

def modeOk (oc cc : Char) : Prop := (oc = '{' ∧ cc = '}') ∨ (oc = '[' ∧ cc = ']')

/-- Right trim: the reflected half of `trimChars`. -/
def rtrimChars (l : List Char) : List Char := (skipWs l.reverse).reverse

/-- The fenced input shape used by the Prompted extractor round-trip. -/
def fenceWrap (m : List Char) : List Char :=
  '`' :: '`' :: '`' :: 'j' :: 's' :: 'o' :: 'n' :: '\n' :: (m ++ ['\n', '`', '`', '`'])

mutual

def jsonBeq : Json → Json → Bool
  | .null, .null => true
  | .bool a, .bool b => a == b
  | .num a, .num b => a == b
  | .str a, .str b => a == b
  | .arr a, .arr b => jarrBeq a b
  | .obj a, .obj b => jobjBeq a b
  | _, _ => false

def jarrBeq : JArr → JArr → Bool
  | .nil, .nil => true
  | .cons a as, .cons b bs => jsonBeq a b && jarrBeq as bs
  | _, _ => false

def jobjBeq : JObj → JObj → Bool
  | .nil, .nil => true
  | .cons k a as, .cons l b bs => k == l && jsonBeq a b && jobjBeq as bs
  | _, _ => false

end

/-- Concrete JSON value used by the extraction witnesses. -/
def vC8 : Json := Json.obj (JObj.cons ("city") (Json.str ("NYC")) JObj.nil)

/-! ## Message data model (port of `types/message.go`) -/

inductive ContentPart : Type where
  | text (t : String) : ContentPart
  | image (data detail : String) : ContentPart
  | imageURL (url : String) : ContentPart
  | refusal (r : String) : ContentPart
  deriving DecidableEq

/-- Port of `ToolFunction`: `Arguments` is the decoded JSON object
 (`map[string]any`), modelled as the ordered field list `JObj`. -/
structure ToolFunction : Type where
  name : String
  arguments : JObj

structure ToolCall : Type where
  id : String
  function : ToolFunction

structure Message : Type where
  role : String
  contentPart : List ContentPart
  toolCalls : List ToolCall
  toolCallID : Option String

/-- Port of `Message.TextContent`: concatenation of the text parts. -/
def TextContent (m : Message) : String :=
  String.join (m.contentPart.filterMap (fun p =>
    match p with
    | .text t => some t
    | _ => none))

def RoleUser : String := "user"

def RoleAssistant : String := "assistant"

def RoleTool : String := "tool"

/-- Port of `NewUserMessage(WithText(s))`. -/
def NewUserMessage (s : String) : Message :=
  { role := RoleUser, contentPart := [ContentPart.text s], toolCalls := [], toolCallID := none }

structure ToolResult : Type where
  contentPart : List ContentPart
  structuredContent : Option String
  isError : Bool

/-- Port of `NewToolResultMessage`. -/
def NewToolResultMessage (toolCallID : String) (result : ToolResult) : Message :=
  { role := RoleTool, contentPart := result.contentPart, toolCalls := [],
    toolCallID := some toolCallID }

/-! ## Response format (port of `types/chat.go` / `types/response_format.go`)

The JSON-Schema validator is the external `jsonschema-go` library; a schema
is modelled as the Boolean predicate it induces on decoded JSON values. -/

def Schema : Type := Json → Bool

def ResponseFormatModeNative : String := "native"

def ResponseFormatModeTool : String := "tool"

def ResponseFormatModePrompted : String := "prompted"

structure ResponseFormat : Type where
  mode : String
  name : String
  description : String
  schema : Option Schema

def OutputToolName : String := "_output"

inductive ExtractError : Type where
  | schemaValidation (rawResponse : String) : ExtractError
  | toolNotCalled (expectedTool : String) : ExtractError
  | outputToolMisuse (otherTools : List String) : ExtractError
  | noValidJSON : ExtractError
  | unsupportedResponseMode : ExtractError

/-- Modelled from the spec: `ValidateJSONString` (not under `src/`) decodes
the content as JSON and validates the decoded value against the schema;
`none` is success. -/
def ValidateJSONString (content : String) (schema : Schema) : Option String :=
  match parseJson content.data with
  | none => some ("invalid json")
  | some w => if schema w then none else some ("schema mismatch")

/-- The common tail of `ExtractStructuredContent`: skip validation while tool
calls remain, then validate non-empty content against the schema. -/
def finishValidation (schema : Schema) (msg : Message) (content : String) :
    Except ExtractError String × Message :=
  if msg.toolCalls.length > 0 then (Except.ok "", msg)
  else if content ≠ "" then
    match ValidateJSONString content schema with
    | some _ => (Except.error (ExtractError.schemaValidation content), msg)
    | none => (Except.ok content, msg)
  else (Except.ok content, msg)

/-- Port of `ExtractStructuredContent`.  The Go function mutates `msg`
in place in exactly one case; the model returns the (possibly updated)
message alongside the result. -/
def ExtractStructuredContent (rf : ResponseFormat) (msg : Message) :
    Except ExtractError String × Message :=
  match rf.schema with
  | none => (Except.ok "", msg)
  | some schema =>
    if rf.mode = ResponseFormatModeNative then
      finishValidation schema msg (TextContent msg)
    else if rf.mode = ResponseFormatModeTool then
      match msg.toolCalls.find? (fun tc => tc.function.name == OutputToolName) with
      | some outputCall =>
        if msg.toolCalls.length > 1 then
          (Except.error (ExtractError.outputToolMisuse
            ((msg.toolCalls.filter (fun tc => !(tc.function.name == OutputToolName))).map
              (fun tc => tc.function.name))), msg)
        else
          let content : String := ⟨encJson (.obj outputCall.function.arguments)⟩
          let msg' : Message :=
            { msg with
              toolCalls := ([] : List ToolCall)
              contentPart := msg.contentPart ++ [ContentPart.text content] }
          finishValidation schema msg' content
      | none =>
        if msg.toolCalls.length = 0 then
          (Except.error (ExtractError.toolNotCalled OutputToolName), msg)
        else
          finishValidation schema msg ""
    else if rf.mode = ResponseFormatModePrompted then
      match ExtractJSON (TextContent msg).data with
      | some out => finishValidation schema msg ⟨out⟩
      | none => (Except.error ExtractError.noValidJSON, msg)
    else (Except.error ExtractError.unsupportedResponseMode, msg)

/-! ## Streaming deltas and the message accumulator (port of `stream.go`
and the `MessageAccumulator` in `unnamed/part_004`) -/

structure ToolCallDelta : Type where
  index : Int
  id : String
  functionName : String
  arguments : String

structure MessageDelta : Type where
  role : String
  content : String
  toolCalls : List ToolCallDelta
  refusal : String

structure toolCallAccumulator : Type where
  id : String
  name : String
  arguments : String

/-- Go's `map[int]*toolCallAccumulator` modelled as an association list in
insertion order; only the sorted key view is ever consumed, as in the
source. -/
structure MessageAccumulator : Type where
  role : String
  content : String
  refusal : String
  toolCalls : List (Int × toolCallAccumulator)

def NewMessageAccumulator : MessageAccumulator :=
  { role := "", content := "", refusal := "", toolCalls := [] }

def getTC : List (Int × toolCallAccumulator) → Int → Option toolCallAccumulator
  | [], _ => none
  | (i, tc) :: rest, idx => if i = idx then some tc else getTC rest idx

def setTC : List (Int × toolCallAccumulator) → Int → toolCallAccumulator →
    List (Int × toolCallAccumulator)
  | [], idx, tc => [(idx, tc)]
  | (i, old) :: rest, idx, tc =>
    if i = idx then (i, tc) :: rest else (i, old) :: setTC rest idx tc

/-- One `callDelta` merge step from `MessageAccumulator.Update`. -/
def applyToolCallDelta (store : List (Int × toolCallAccumulator)) (cd : ToolCallDelta) :
    List (Int × toolCallAccumulator) :=
  let tc := (getTC store cd.index).getD { id := "", name := "", arguments := "" }
  let tc : toolCallAccumulator :=
    { id := if cd.id ≠ "" then cd.id else tc.id
      name := if cd.functionName ≠ "" then cd.functionName else tc.name
      arguments := if cd.arguments ≠ "" then tc.arguments ++ cd.arguments else tc.arguments }
  setTC store cd.index tc

/-- Port of `MessageAccumulator.Update`: fields absent (empty) in the delta
leave the accumulated state untouched. -/
def MessageAccumulator.Update (ma : MessageAccumulator) (delta : MessageDelta) :
    MessageAccumulator :=
  let ma := if delta.role ≠ "" then { ma with role := delta.role } else ma
  let ma := if delta.content ≠ "" then { ma with content := ma.content ++ delta.content } else ma
  let ma := if delta.refusal ≠ "" then { ma with refusal := ma.refusal ++ delta.refusal } else ma
  { ma with toolCalls := delta.toolCalls.foldl applyToolCallDelta ma.toolCalls }

def trimString (s : String) : String := ⟨trimChars s.data⟩

def insertInt (x : Int) : List Int → List Int
  | [] => [x]
  | y :: ys => if x ≤ y then x :: y :: ys else y :: insertInt x ys

/-- Model of `sort.Ints`. -/
def sortInts : List Int → List Int
  | [] => []
  | x :: xs => insertInt x (sortInts xs)

/-- The per-index body of `MessageAccumulator.Message`: trim the accumulated
argument text, decode empty text as an empty argument set, and fail on text
that does not decode into a JSON object (Go unmarshals into
`map[string]any`). -/
def buildToolCalls : List Int → List (Int × toolCallAccumulator) →
    Except String (List ToolCall)
  | [], _ => Except.ok []
  | i :: is, store =>
    match getTC store i with
    | none => buildToolCalls is store
    | some tc =>
      let raw := trimString tc.arguments
      if raw = "" then
        (buildToolCalls is store).map
          (fun cs => ⟨tc.id, ⟨tc.name, JObj.nil⟩⟩ :: cs)
      else
        match parseJson raw.data with
        | some (.obj fs) =>
          (buildToolCalls is store).map (fun cs => ⟨tc.id, ⟨tc.name, fs⟩⟩ :: cs)
        | some _ => Except.error ("parse tool call arguments: cannot unmarshal into map")
        | none => Except.error ("parse tool call arguments: invalid json")

/-- The tool-call-free message assembled by `MessageAccumulator.Message`. -/
def baseMessage (ma : MessageAccumulator) : Message :=
  { role := ma.role,
    contentPart :=
      (if ma.content.length > 0 then [ContentPart.text ma.content] else [])
        ++ (if ma.refusal.length > 0 then [ContentPart.refusal ma.refusal] else []),
    toolCalls := [], toolCallID := none }

/-- Port of `MessageAccumulator.Message`: text and refusal parts when
non-empty, then the tool calls in ascending index order. -/
def MessageAccumulator.Message (ma : MessageAccumulator) : Except String Elysia.Message :=
  if ma.toolCalls.length > 0 then
    (buildToolCalls (sortInts (ma.toolCalls.map Prod.fst)) ma.toolCalls).map
      (fun cs => { baseMessage ma with toolCalls := cs })
  else Except.ok (baseMessage ma)

structure Usage : Type where
  promptTokens : Int
  completionTokens : Int
  totalTokens : Int
  deriving DecidableEq

structure Choice : Type where
  index : Int
  message : Message
  finishReason : String

structure ChatResponse : Type where
  id : String
  created : Int
  model : String
  choices : List Choice
  usage : Option Usage

structure StreamChoice : Type where
  index : Int
  delta : Option MessageDelta
  finishReason : String

structure StreamChunk : Type where
  id : String
  created : Int
  model : String
  choices : List StreamChoice
  usage : Option Usage

/-- Port of `toolCallAccumulator` from the `types` accumulator
(src/types/stream_helper_test.go, third document): argument text plus the
`parsed` cache filled by `tryParseArguments`. -/
structure SToolCallAcc : Type where
  id : String
  name : String
  arguments : String
  parsed : Option JObj

/-- Port of the `types` package's `MessageAccumulator`
(src/types/stream_helper_test.go, third document) — the version the
multi-choice `StreamWithHandler` pairs with: like the part_004 version
but latching the first accumulation error in `err`, exposed by
`Error()`. -/
structure SMessageAccumulator : Type where
  role : String
  content : String
  refusal : String
  toolCalls : List (Int × SToolCallAcc)
  err : Option String

def SNewMessageAccumulator : SMessageAccumulator :=
  { role := "", content := "", refusal := "", toolCalls := [], err := none }

def getSTC : List (Int × SToolCallAcc) → Int → Option SToolCallAcc
  | [], _ => none
  | (i, tc) :: rest, idx => if i = idx then some tc else getSTC rest idx

def setSTC : List (Int × SToolCallAcc) → Int → SToolCallAcc →
    List (Int × SToolCallAcc)
  | [], idx, tc => [(idx, tc)]
  | (i, old) :: rest, idx, tc =>
    if i = idx then (i, tc) :: rest else (i, old) :: setSTC rest idx tc

/-- Port of `tryParseArguments`: empty or not-yet-valid argument text is
fine (the stream may still be mid-fragment); valid JSON is unmarshalled
into `map[string]any` — an object fills the `parsed` cache, `null`
succeeds as Go's no-op unmarshal into a nil map (assigning the still-nil
map to the cache), and any other value is the accumulation error. -/
def tryParseArguments (tc : SToolCallAcc) : SToolCallAcc × Option String :=
  let raw := trimChars tc.arguments.data
  if raw = [] then (tc, none)
  else
    match parseJson raw with
    | none => (tc, none)
    | some (Json.obj fs) => ({ tc with parsed := some fs }, none)
    | some Json.null => ({ tc with parsed := none }, none)
    | some _ => (tc, some ("cannot unmarshal into map"))

/-- One `callDelta` step of the `types` accumulator's `Update`, threading
the accumulator error (a later parse failure within the same delta
overwrites an earlier one, as in the source's unconditional
assignment). -/
def applySCallDelta (acc : List (Int × SToolCallAcc) × Option String)
    (cd : ToolCallDelta) : List (Int × SToolCallAcc) × Option String :=
  let tc := (getSTC acc.1 cd.index).getD
    { id := "", name := "", arguments := "", parsed := none }
  let tc := { tc with
      id := if cd.id ≠ "" then cd.id else tc.id
      name := if cd.functionName ≠ "" then cd.functionName else tc.name }
  if cd.arguments ≠ "" then
    let tc := { tc with arguments := tc.arguments ++ cd.arguments }
    let p := tryParseArguments tc
    match p.2 with
    | some e =>
      (setSTC acc.1 cd.index p.1,
       some ("tool call " ++ String.mk (encInt cd.index) ++ ": " ++ e))
    | none => (setSTC acc.1 cd.index p.1, acc.2)
  else (setSTC acc.1 cd.index tc, acc.2)

/-- Port of the `types` accumulator's `Update`: a no-op once an error is
latched; otherwise merge the delta fields and record any argument-parse
error arising from the appended fragments. -/
def SMessageAccumulator.Update (ma : SMessageAccumulator) (delta : MessageDelta) :
    SMessageAccumulator :=
  if ma.err.isSome then ma
  else
    let ma := if delta.role ≠ "" then { ma with role := delta.role } else ma
    let ma := if delta.content ≠ "" then { ma with content := ma.content ++ delta.content } else ma
    let ma := if delta.refusal ≠ "" then { ma with refusal := ma.refusal ++ delta.refusal } else ma
    let r := delta.toolCalls.foldl applySCallDelta (ma.toolCalls, ma.err)
    { ma with toolCalls := r.1, err := r.2 }

/-- Port of `Error()`. -/
def SMessageAccumulator.Error (ma : SMessageAccumulator) : Option String := ma.err

/-- Port of `argumentsMap`: the `parsed` cache wins; otherwise the
trimmed text is decoded, empty text and `null` giving the empty map and
anything that is not an object failing. -/
def argumentsMap (tc : SToolCallAcc) (idx : Int) : Except String JObj :=
  match tc.parsed with
  | some fs => Except.ok fs
  | none =>
    let raw := trimChars tc.arguments.data
    if raw = [] then Except.ok JObj.nil
    else
      match parseJson raw with
      | some (Json.obj fs) => Except.ok fs
      | some Json.null => Except.ok JObj.nil
      | some _ => Except.error ("parse tool call " ++ String.mk (encInt idx)
          ++ " arguments: cannot unmarshal into map")
      | none => Except.error ("parse tool call " ++ String.mk (encInt idx)
          ++ " arguments: invalid json")

/-- The tool-call loop of the `types` accumulator's `Message()`: walk the
sorted indexes, decoding each call's arguments via `argumentsMap`. -/
def buildSToolCalls : List Int → List (Int × SToolCallAcc) →
    Except String (List ToolCall)
  | [], _ => Except.ok []
  | i :: is, store =>
    match getSTC store i with
    | none => buildSToolCalls is store
    | some tc =>
      match argumentsMap tc i with
      | Except.error e => Except.error e
      | Except.ok fs =>
        (buildSToolCalls is store).map (fun cs => ⟨tc.id, ⟨tc.name, fs⟩⟩ :: cs)

/-- The tool-call-free message assembled by the `types` accumulator's
`Message()`. -/
def sBaseMessage (ma : SMessageAccumulator) : Message :=
  { role := ma.role,
    contentPart :=
      (if ma.content.length > 0 then [ContentPart.text ma.content] else [])
        ++ (if ma.refusal.length > 0 then [ContentPart.refusal ma.refusal] else []),
    toolCalls := [], toolCallID := none }

/-- Port of the `types` accumulator's `Message()`: fails on a latched
error, otherwise assembles content parts and the tool calls in ascending
index order. -/
def SMessageAccumulator.Message (ma : SMessageAccumulator) :
    Except String Elysia.Message :=
  match ma.err with
  | some e => Except.error e
  | none =>
    if ma.toolCalls.length > 0 then
      (buildSToolCalls (sortInts (ma.toolCalls.map Prod.fst)) ma.toolCalls).map
        (fun cs => { sBaseMessage ma with toolCalls := cs })
    else Except.ok (sBaseMessage ma)

/-- The loop state of `StreamWithHandler` (types/tool.go): Go's
`map[int]*MessageAccumulator` and `map[int]string` modelled as association
lists, plus the first-seen `order` slice and the last usage snapshot. -/
structure swhState : Type where
  accumulators : List (Int × SMessageAccumulator)
  finishReasons : List (Int × String)
  order : List Int
  finalUsage : Option Usage

def getAcc : List (Int × SMessageAccumulator) → Int → Option SMessageAccumulator
  | [], _ => none
  | (i, a) :: rest, idx => if i = idx then some a else getAcc rest idx

def setAcc : List (Int × SMessageAccumulator) → Int → SMessageAccumulator →
    List (Int × SMessageAccumulator)
  | [], idx, a => [(idx, a)]
  | (i, old) :: rest, idx, a =>
    if i = idx then (i, a) :: rest else (i, old) :: setAcc rest idx a

def getFin : List (Int × String) → Int → String
  | [], _ => ""
  | (i, s) :: rest, idx => if i = idx then s else getFin rest idx

def setFin : List (Int × String) → Int → String → List (Int × String)
  | [], idx, s => [(idx, s)]
  | (i, old) :: rest, idx, s =>
    if i = idx then (i, s) :: rest else (i, old) :: setFin rest idx s

def applyDeltaOpt (a : SMessageAccumulator) : Option MessageDelta → SMessageAccumulator
  | some d => a.Update d
  | none => a

/-- `acc == nil` branch of the per-choice loop body: create and register a
fresh accumulator and remember the index in first-seen order. -/
def registerIdx (st : swhState) (idx : Int) : swhState :=
  match getAcc st.accumulators idx with
  | some _ => st
  | none =>
    { st with
        accumulators := setAcc st.accumulators idx SNewMessageAccumulator
        order := st.order ++ [idx] }

/-- The state-updating part of the per-choice body of the chunk loop in
`StreamWithHandler`: register the index if new, merge the delta (if any)
into that index's accumulator, and record a non-empty finish reason. The
mid-stream `acc.Error()` abort is layered on top in `processChoiceE`. -/
def processChoice (st : swhState) (c : StreamChoice) : swhState :=
  let st1 := registerIdx st c.index
  let acc := (getAcc st1.accumulators c.index).getD SNewMessageAccumulator
  let st2 := { st1 with
      accumulators := setAcc st1.accumulators c.index (applyDeltaOpt acc c.delta) }
  if c.finishReason ≠ "" then
    { st2 with finishReasons := setFin st2.finishReasons c.index c.finishReason }
  else st2

/-- The state-updating part of the per-chunk body of `StreamWithHandler`
(`processChunkE` threads the abort through it): fold the chunk's choices,
then let a usage-carrying chunk overwrite the final usage (last one
wins). -/
def processChunk (st : swhState) (ch : StreamChunk) : swhState :=
  let st1 := ch.choices.foldl processChoice st
  match ch.usage with
  | some u => { st1 with finalUsage := some u }
  | none => st1

def initState : swhState := ⟨[], [], [], none⟩

/-- Choice-reconstruction loop of `StreamWithHandler`: walk the sorted
index order, finalize each index's accumulator, and fail on the first
accumulator whose finalization fails. -/
def buildChoices (st : swhState) : List Int → Except String (List Choice)
  | [] => Except.ok []
  | idx :: rest =>
    match getAcc st.accumulators idx with
    | none => buildChoices st rest
    | some acc =>
      match acc.Message with
      | Except.error e =>
        Except.error ("stream accumulator (choice " ++ String.mk (encInt idx) ++ "): " ++ e)
      | Except.ok m =>
        (buildChoices st rest).map
          (fun cs => { index := idx, message := m, finishReason := getFin st.finishReasons idx } :: cs)

/-- The per-choice body with the mid-stream `acc.Error()` check of
`StreamWithHandler` (types/tool.go): after a delta is merged into its
index's accumulator, a latched accumulator error aborts the whole stream,
named with the choice index. The pure state update is `processChoice`; on
abort the state is discarded, so computing the finish-reason update before
the check does not change the returned value. -/
def processChoiceE (st : swhState) (c : StreamChoice) : Except String swhState :=
  let st1 := processChoice st c
  match c.delta with
  | none => Except.ok st1
  | some _ =>
    match getAcc st1.accumulators c.index with
    | some acc =>
      match acc.err with
      | some e => Except.error ("stream accumulator (choice "
          ++ String.mk (encInt c.index) ++ "): " ++ e)
      | none => Except.ok st1
    | none => Except.ok st1

def processChoicesE : swhState → List StreamChoice → Except String swhState
  | st, [] => Except.ok st
  | st, c :: rest =>
    match processChoiceE st c with
    | Except.error e => Except.error e
    | Except.ok st1 => processChoicesE st1 rest

/-- Per-chunk body of `StreamWithHandler` with the abort threaded through
the choice loop. -/
def processChunkE (st : swhState) (ch : StreamChunk) : Except String swhState :=
  match processChoicesE st ch.choices with
  | Except.error e => Except.error e
  | Except.ok st1 =>
    Except.ok (match ch.usage with
      | some u => { st1 with finalUsage := some u }
      | none => st1)

def runChunksE : swhState → List StreamChunk → Except String swhState
  | st, [] => Except.ok st
  | st, ch :: rest =>
    match processChunkE st ch with
    | Except.error e => Except.error e
    | Except.ok st1 => runChunksE st1 rest

/-- Port of the multi-choice `StreamWithHandler` (types/tool.go): one
accumulator per choice index, a mid-stream abort when an accumulator
latches an error after a delta, choices reassembled in ascending index
order, last usage-carrying chunk wins. -/
def StreamWithHandler (model : String) (chunks : List StreamChunk) :
    Except String ChatResponse :=
  match runChunksE initState chunks with
  | Except.error e => Except.error e
  | Except.ok st =>
    (buildChoices st (sortInts st.order)).map
      (fun cs =>
        { id := "", created := 0, model := model, choices := cs, usage := st.finalUsage })

/-- The deltas a given choice index receives from a flattened stream. -/
def deltasFor (idx : Int) (cs : List StreamChoice) : List MessageDelta :=
  cs.filterMap (fun c => if c.index = idx then c.delta else none)

/-- Invariant of the chunk loop: the first-seen order list has no
duplicates and holds exactly the registered indexes. -/
def goodState (st : swhState) : Prop :=
  st.order.Nodup ∧ ∀ i : Int, i ∈ st.order ↔ (getAcc st.accumulators i).isSome

/-- A concrete two-index stream: chunk one carries deltas for indexes 1
then 0, chunk two finishes both and carries the usage snapshot. -/
def c10chunks : List StreamChunk :=
  [ { id := "", created := 0, model := "m",
      choices :=
        [ { index := 1, delta := some { role := "assistant", content := "B1",
                                        toolCalls := [], refusal := "" },
            finishReason := "" },
          { index := 0, delta := some { role := "assistant", content := "A1",
                                        toolCalls := [], refusal := "" },
            finishReason := "" } ],
      usage := none },
    { id := "", created := 0, model := "m",
      choices :=
        [ { index := 0, delta := some { role := "", content := "A2",
                                        toolCalls := [], refusal := "" },
            finishReason := "stop" },
          { index := 1, delta := some { role := "", content := "B2",
                                        toolCalls := [], refusal := "" },
            finishReason := "stop" } ],
      usage := some { promptTokens := 1, completionTokens := 2, totalTokens := 3 } } ]

def c10resp : ChatResponse :=
  { id := "", created := 0, model := "m",
    choices :=
      [ { index := 0,
          message := { role := "assistant", contentPart := [ContentPart.text ("A1A2")],
                       toolCalls := [], toolCallID := none },
          finishReason := "stop" },
        { index := 1,
          message := { role := "assistant", contentPart := [ContentPart.text ("B1B2")],
                       toolCalls := [], toolCallID := none },
          finishReason := "stop" } ],
    usage := some { promptTokens := 1, completionTokens := 2, totalTokens := 3 } }

/-- Port of `agent.RunContext` (agent/tool.go). Modelled from the spec:
the `Retry`, `MaxRetries` and `ToolCallID` fields the run loop sets before
each tool call (§4.2's retry-aware context), absent from the src/ version
of the structure; the generic `Deps` field is omitted (no claim touches
it). -/
structure RunContext : Type where
  messages : List Message
  usage : Usage
  prompt : String
  runID : String
  retry : Int
  maxRetries : Int
  toolCallID : String

/-- A failure surfaced by a tool's `Execute`: Go's non-nil `error`,
split by the `IsModelRetry` test the run loop applies. Modelled from the
spec: the `ModelRetry` error type and `IsModelRetry` are absent from
src/. -/
inductive ExecErr : Type where
  | modelRetry (msg : String)
  | fatal (msg : String)
  deriving DecidableEq

/-- Port of `validateAndExecute` (agent/tool.go, `NewTool`): every
failure — input validation, input decode, handler error, output
validation, output marshal — returns an error-flagged `ToolResult` with a
nil Go error (`Except.ok`), never an `ExecErr`. The schema validators,
the typed decode and the output marshal are the generic library calls,
passed as function parameters; `json.Marshal` of the untyped argument
map is `encJson` (total on JSON values); the dynamically typed
`StructuredContent` field is represented by the output's JSON
serialization. -/
def validateAndExecute {TIn TOut : Type}
    (inputValidate : JObj → Option String)
    (unmarshalIn : List Char → Except String TIn)
    (handler : RunContext → TIn → Except String TOut)
    (outputValidate : TOut → Option String)
    (marshalOut : TOut → Except String (List Char))
    (rc : RunContext) (args : JObj) : Except ExecErr ToolResult :=
  match inputValidate args with
  | some e =>
    Except.ok { contentPart := [ContentPart.text ("Input validation error: " ++ e)],
                structuredContent := none, isError := true }
  | none =>
    match unmarshalIn (encJson (Json.obj args)) with
    | Except.error e =>
      Except.ok { contentPart := [ContentPart.text ("Failed to parse input: " ++ e)],
                  structuredContent := none, isError := true }
    | Except.ok typedInput =>
      match handler rc typedInput with
      | Except.error e =>
        Except.ok { contentPart := [ContentPart.text ("Execution error: " ++ e)],
                    structuredContent := none, isError := true }
      | Except.ok output =>
        match outputValidate output with
        | some e =>
          Except.ok { contentPart := [ContentPart.text ("Output validation error: " ++ e)],
                      structuredContent := none, isError := true }
        | none =>
          match marshalOut output with
          | Except.error e =>
            Except.ok { contentPart := [ContentPart.text ("Failed to marshal output: " ++ e)],
                        structuredContent := none, isError := true }
          | Except.ok outputJSON =>
            Except.ok { contentPart := [ContentPart.text (String.mk outputJSON)],
                        structuredContent := some (String.mk outputJSON), isError := false }

/-- Port of `agent.Tool`: the definition's name, the `Retries` override
(modelled from the spec — the field is absent from src/ tool.go but read
by `getEffectiveRetries`), and the uniform `Execute` shape. -/
structure AgentTool : Type where
  name : String
  retries : Int
  execute : RunContext → JObj → Except ExecErr ToolResult

structure UsageLimits : Type where
  requestLimit : Int
  completionTokensLimit : Int
  toolCallsLimit : Int

/-- Agent-level configuration relevant to `Run`; `New` fixes
`maxIterations` at 10 with no option to change it. `hasOutputSchema`
stands for `rf.Schema != nil` after `ResponseFormatFor`. -/
structure AgentCfg : Type where
  tools : List AgentTool
  maxIterations : Nat
  retries : Int
  outputRetries : Int
  hasOutputSchema : Bool

structure RunCfg : Type where
  prompt : String
  messages : List Message
  runRetries : Option Int
  usageLimits : Option UsageLimits

/-- Modelled from the spec: `Choice` as consumed by the run loop carries
the per-choice `StructuredContent` text resolved during dispatch (§4.1
step 6); the field is absent from src/types/chat.go. `message` is Go's
possibly-nil `*Message`. -/
structure RunChoice : Type where
  message : Option Message
  structuredContent : String

structure RunChatResponse : Type where
  choices : List RunChoice
  usage : Option Usage

/-- The transport failure seen by the run loop, split by
`isOutputValidationError` (schema-validation, tool-not-called and
output-tool-misuse errors are recoverable). -/
inductive ChatErr : Type where
  | outputValidation (msg : String)
  | other (msg : String)

def ChatErr.msg : ChatErr → String
  | .outputValidation m => m
  | .other m => m

/-- Port of `isOutputValidationError`. -/
def isOutputValidationErr : ChatErr → Bool
  | .outputValidation _ => true
  | .other _ => false

inductive RunError : Type where
  | usageLimitExceeded (limit : String) (value : Int) (max : Int)
  | outputValidationExceeded (maxRetries : Int) (msg : String)
  | chatError (msg : String)
  | noResponse
  | outputUnmarshalExceeded (maxRetries : Int) (msg : String)
  | expectedStructuredOutput (maxRetries : Int)
  | unknownTool (name : String)
  | toolMaxRetries (name : String) (maxRetries : Int) (msg : String)
  | toolExecutionFailed (msg : String)
  | maxIterations (n : Nat)
  deriving DecidableEq

structure RunResultS (TOut : Type) : Type where
  output : TOut
  messages : List Message
  usage : Usage

/-- The run loop's mutable state, plus the ghost `execTrace` recording
each `Execute` invocation as (tool name, retry counter passed in). -/
structure LoopState : Type where
  messages : List Message
  usage : Usage
  toolRetries : List (String × Int)
  requestCount : Int
  successfulToolCalls : Int
  outputRetryCount : Int
  execTrace : List (String × Int)

def getTR : List (String × Int) → String → Int
  | [], _ => 0
  | (n, v) :: rest, name => if n = name then v else getTR rest name

def setTR : List (String × Int) → String → Int → List (String × Int)
  | [], name, v => [(name, v)]
  | (n, old) :: rest, name, v =>
    if n = name then (n, v) :: rest else (n, old) :: setTR rest name v

/-- Port of `findTool` (map lookup; `WithTools` rejects duplicates). -/
def findTool : List AgentTool → String → Option AgentTool
  | [], _ => none
  | t :: rest, name => if t.name = name then some t else findTool rest name

/-- Port of `getEffectiveRetries`: run override > tool override > agent
default. -/
def getEffectiveRetries (cfg : AgentCfg) (tool : AgentTool)
    (runRetries : Option Int) : Int :=
  match runRetries with
  | some r => r
  | none => if tool.retries > 0 then tool.retries else cfg.retries

/-- Port of `getEffectiveOutputRetries`. -/
def getEffectiveOutputRetries (cfg : AgentCfg) : Int :=
  if cfg.outputRetries > 0 then cfg.outputRetries else cfg.retries

def addUsage (u v : Usage) : Usage :=
  { promptTokens := u.promptTokens + v.promptTokens,
    completionTokens := u.completionTokens + v.completionTokens,
    totalTokens := u.totalTokens + v.totalTokens }

/-- The request-limit pre-check at the top of each iteration. -/
def requestLimitHit (rcfg : RunCfg) (st : LoopState) : Bool :=
  match rcfg.usageLimits with
  | some ul => decide (ul.requestLimit > 0) && decide (st.requestCount ≥ ul.requestLimit)
  | none => false

def requestLimitOf (rcfg : RunCfg) : Int :=
  match rcfg.usageLimits with
  | some ul => ul.requestLimit
  | none => 0

/-- The per-response completion-token ceiling check. -/
def completionLimitHit (rcfg : RunCfg) (u : Option Usage) : Bool :=
  match rcfg.usageLimits, u with
  | some ul, some usage =>
    decide (ul.completionTokensLimit > 0) && decide (usage.completionTokens > ul.completionTokensLimit)
  | _, _ => false

def completionTokensOf : Option Usage → Int
  | some u => u.completionTokens
  | none => 0

def completionLimitOf (rcfg : RunCfg) : Int :=
  match rcfg.usageLimits with
  | some ul => ul.completionTokensLimit
  | none => 0

/-- The successful-tool-calls ceiling check (applied after the counter is
incremented, before the result message is appended). -/
def toolCallsLimitHit (rcfg : RunCfg) (n : Int) : Bool :=
  match rcfg.usageLimits with
  | some ul => decide (ul.toolCallsLimit > 0) && decide (n > ul.toolCallsLimit)
  | none => false

def toolCallsLimitOf (rcfg : RunCfg) : Int :=
  match rcfg.usageLimits with
  | some ul => ul.toolCallsLimit
  | none => 0

/-- Parameters of one `Run` invocation: the agent, the transport (a
function of the request ordinal, i.e. the value of `requestCount` at
dispatch), the run options, and the generic output type's zero value and
`json.Unmarshal` into it. -/
structure RunParams (TOut : Type) : Type where
  cfg : AgentCfg
  client : Int → Except ChatErr RunChatResponse
  rcfg : RunCfg
  dflt : TOut
  decodeOut : String → Except String TOut

/-- Port of the tool-call loop (Case 2 of `Run`, agent/agent.go): resolve
each call in order, classify the execution outcome (`ModelRetry` at the
cap is fatal naming tool, limit and message; under the cap it increments
the counter and synthesizes an error-flagged result; any other error is
fatal; success resets the counter, counts the call, checks the
tool-calls ceiling, then appends the result message). -/
def processCalls (cfg : AgentCfg) (rcfg : RunCfg) :
    LoopState → List ToolCall → LoopState × Option RunError
  | st, [] => (st, none)
  | st, tc :: rest =>
    match findTool cfg.tools tc.function.name with
    | none => (st, some (RunError.unknownTool tc.function.name))
    | some tool =>
      let retryCount := getTR st.toolRetries tool.name
      let maxRetries := getEffectiveRetries cfg tool rcfg.runRetries
      let rc : RunContext :=
        { messages := st.messages, usage := st.usage, prompt := rcfg.prompt,
          runID := "", retry := retryCount, maxRetries := maxRetries,
          toolCallID := tc.id }
      let st1 := { st with execTrace := st.execTrace ++ [(tool.name, retryCount)] }
      match tool.execute rc tc.function.arguments with
      | Except.error (ExecErr.modelRetry m) =>
        if retryCount ≥ maxRetries then
          (st1, some (RunError.toolMaxRetries tool.name maxRetries m))
        else
          processCalls cfg rcfg
            { st1 with
                toolRetries := setTR st1.toolRetries tool.name (retryCount + 1),
                messages := st1.messages ++ [NewToolResultMessage tc.id
                  { contentPart := [ContentPart.text m], structuredContent := none,
                    isError := true }] }
            rest
      | Except.error (ExecErr.fatal m) => (st1, some (RunError.toolExecutionFailed m))
      | Except.ok result =>
        let st2 := { st1 with
            toolRetries := setTR st1.toolRetries tool.name 0,
            successfulToolCalls := st1.successfulToolCalls + 1 }
        if toolCallsLimitHit rcfg st2.successfulToolCalls then
          (st2, some (RunError.usageLimitExceeded "tool_calls_limit"
            st2.successfulToolCalls (toolCallsLimitOf rcfg)))
        else
          processCalls cfg rcfg
            { st2 with messages := st2.messages ++ [NewToolResultMessage tc.id result] }
            rest

/-- Port of the iteration loop of `Run` (agent/agent.go): request-limit
pre-check, dispatch, recoverable output-validation transport failures,
empty-choice check, per-response completion-token ceiling, usage
accumulation, assistant message append, then either structured-output
finalization or tool execution. The pair's first component is the final
loop state (with the ghost trace); the second is Go's return value. -/
def runIter {TOut : Type} (P : RunParams TOut) :
    Nat → LoopState → LoopState × Except RunError (RunResultS TOut)
  | 0, st => (st, Except.error (RunError.maxIterations P.cfg.maxIterations))
  | fuel + 1, st =>
    if requestLimitHit P.rcfg st then
      (st, Except.error (RunError.usageLimitExceeded "request_limit"
        st.requestCount (requestLimitOf P.rcfg)))
    else
      match P.client st.requestCount with
      | Except.error cerr =>
        let st1 := { st with requestCount := st.requestCount + 1 }
        if isOutputValidationErr cerr then
          if st1.outputRetryCount ≥ getEffectiveOutputRetries P.cfg then
            (st1, Except.error (RunError.outputValidationExceeded
              (getEffectiveOutputRetries P.cfg) cerr.msg))
          else
            runIter P fuel { st1 with
              outputRetryCount := st1.outputRetryCount + 1,
              messages := st1.messages ++ [NewUserMessage
                ("Output validation error: " ++ cerr.msg ++ ". Please try again.")] }
        else (st1, Except.error (RunError.chatError cerr.msg))
      | Except.ok resp =>
        let st1 := { st with requestCount := st.requestCount + 1 }
        match resp.choices with
        | [] => (st1, Except.error RunError.noResponse)
        | choice :: _ =>
          match choice.message with
          | none => (st1, Except.error RunError.noResponse)
          | some msg =>
            if completionLimitHit P.rcfg resp.usage then
              (st1, Except.error (RunError.usageLimitExceeded "completion_tokens_limit"
                (completionTokensOf resp.usage) (completionLimitOf P.rcfg)))
            else
              let st2 := { st1 with
                  usage := match resp.usage with
                    | some u => addUsage st1.usage u
                    | none => st1.usage }
              let st3 := { st2 with messages := st2.messages ++ [msg] }
              if msg.toolCalls.isEmpty then
                if choice.structuredContent ≠ "" then
                  match P.decodeOut choice.structuredContent with
                  | Except.error e =>
                    if st3.outputRetryCount ≥ getEffectiveOutputRetries P.cfg then
                      (st3, Except.error (RunError.outputUnmarshalExceeded
                        (getEffectiveOutputRetries P.cfg) e))
                    else
                      runIter P fuel { st3 with
                        outputRetryCount := st3.outputRetryCount + 1,
                        messages := st3.messages ++ [NewUserMessage
                          ("Failed to parse output: " ++ e ++ ". Please provide valid output.")] }
                  | Except.ok res =>
                    (st3, Except.ok { output := res, messages := st3.messages,
                                      usage := st3.usage })
                else
                  if P.cfg.hasOutputSchema then
                    if st3.outputRetryCount ≥ getEffectiveOutputRetries P.cfg then
                      (st3, Except.error (RunError.expectedStructuredOutput
                        (getEffectiveOutputRetries P.cfg)))
                    else
                      runIter P fuel { st3 with
                        outputRetryCount := st3.outputRetryCount + 1,
                        messages := st3.messages ++ [NewUserMessage
                          ("Expected structured output but received none. Please provide the output in the required format.")] }
                  else
                    (st3, Except.ok { output := P.dflt, messages := st3.messages,
                                      usage := st3.usage })
              else
                match processCalls P.cfg P.rcfg st3 msg.toolCalls with
                | (st4, some err) => (st4, Except.error err)
                | (st4, none) => runIter P fuel st4

/-- Port of `New`: `maxIterations` is fixed at 10, with no option to
change it. -/
def AgentNew (tools : List AgentTool) (retries outputRetries : Int)
    (hasOutputSchema : Bool) : AgentCfg :=
  { tools := tools, maxIterations := 10, retries := retries,
    outputRetries := outputRetries, hasOutputSchema := hasOutputSchema }

def zeroUsage : Usage := { promptTokens := 0, completionTokens := 0, totalTokens := 0 }

/-- Port of `Run`: build the initial history (run messages plus the
prompt as a user message when non-empty), zero all counters, and iterate
up to `maxIterations`. -/
def Run {TOut : Type} (P : RunParams TOut) :
    LoopState × Except RunError (RunResultS TOut) :=
  runIter P P.cfg.maxIterations
    { messages := P.rcfg.messages
        ++ (if P.rcfg.prompt ≠ "" then [NewUserMessage P.rcfg.prompt] else []),
      usage := zeroUsage, toolRetries := [], requestCount := 0,
      successfulToolCalls := 0, outputRetryCount := 0, execTrace := [] }

/-- A tool wrapping an always-failing handler through
`validateAndExecute`, with trivially passing validators. -/
def C1tool (e : String) : AgentTool :=
  { name := "t", retries := 0,
    execute := validateAndExecute (fun _ => none)
      (fun _ => Except.ok ())
      (fun _ _ => (Except.error e : Except String Unit))
      (fun _ => none)
      (fun _ => Except.ok ([] : List Char)) }

def C1assistantMsg : Message :=
  { role := "assistant", contentPart := [],
    toolCalls := [{ id := "call1", function := { name := "t", arguments := JObj.nil } }],
    toolCallID := none }

def C1doneMsg : Message :=
  { role := "assistant", contentPart := [ContentPart.text ("done")],
    toolCalls := [], toolCallID := none }

/-- First response calls the tool once; second response is plain text. -/
def C1client : Int → Except ChatErr RunChatResponse := fun n =>
  if n = 0 then
    Except.ok { choices := [{ message := some C1assistantMsg, structuredContent := "" }],
                usage := none }
  else
    Except.ok { choices := [{ message := some C1doneMsg, structuredContent := "" }],
                usage := none }

def C1P (e : String) : RunParams Unit :=
  { cfg := AgentNew [C1tool e] 3 0 false,
    client := C1client,
    rcfg := { prompt := "go", messages := [], runRetries := none, usageLimits := none },
    dflt := (), decodeOut := fun _ => Except.ok () }

def C1errResult (e : String) : ToolResult :=
  { contentPart := [ContentPart.text ("Execution error: " ++ e)],
    structuredContent := none, isError := true }

def C1rc : RunContext :=
  { messages := [], usage := zeroUsage, prompt := "", runID := "",
    retry := 0, maxRetries := 0, toolCallID := "call1" }

/-- A tool whose input validation always fails with message `e`. -/
def C2tool (e : String) : AgentTool :=
  { name := "t", retries := 0,
    execute := validateAndExecute (fun _ => some e)
      (fun _ => Except.ok ())
      (fun _ _ => (Except.ok () : Except String Unit))
      (fun _ => none)
      (fun _ => Except.ok ([] : List Char)) }

def C2rcfg : RunCfg :=
  { prompt := "", messages := [], runRetries := none, usageLimits := none }

def C2st0 : LoopState :=
  { messages := [], usage := zeroUsage, toolRetries := [], requestCount := 0,
    successfulToolCalls := 0, outputRetryCount := 0, execTrace := [] }

def C2tc : ToolCall := { id := "c1", function := { name := "t", arguments := JObj.nil } }

def C2rcW : RunContext :=
  { messages := [], usage := zeroUsage, prompt := "", runID := "",
    retry := 0, maxRetries := 0, toolCallID := "c1" }

def C4errRes : ToolResult :=
  { contentPart := [ContentPart.text ("again")], structuredContent := none,
    isError := true }

def C4okRes : ToolResult :=
  { contentPart := [ContentPart.text ("ok")], structuredContent := none,
    isError := false }

/-- A tool that succeeds exactly when the run loop hands it tool-call id
"2", and asks for a model retry otherwise. -/
def C4tool : AgentTool :=
  { name := "t", retries := 5,
    execute := fun rc _ =>
      if rc.toolCallID = "2" then Except.ok C4okRes
      else Except.error (ExecErr.modelRetry ("again")) }

def C4callMsg (cid : String) : Message :=
  { role := "assistant", contentPart := [],
    toolCalls := [{ id := cid, function := { name := "t", arguments := JObj.nil } }],
    toolCallID := none }

def C4client : Int → Except ChatErr RunChatResponse := fun n =>
  if n = 0 then
    Except.ok { choices := [{ message := some (C4callMsg ("1")), structuredContent := "" }],
                usage := none }
  else if n = 1 then
    Except.ok { choices := [{ message := some (C4callMsg ("2")), structuredContent := "" }],
                usage := none }
  else if n = 2 then
    Except.ok { choices := [{ message := some (C4callMsg ("3")), structuredContent := "" }],
                usage := none }
  else
    Except.ok { choices := [{ message := some C1doneMsg, structuredContent := "" }],
                usage := none }

def C4P : RunParams Unit :=
  { cfg := AgentNew [C4tool] 0 0 false,
    client := C4client,
    rcfg := { prompt := "go", messages := [], runRetries := none, usageLimits := none },
    dflt := (), decodeOut := fun _ => Except.ok () }

/-- A tool that always succeeds with the fixed "ok" result. -/
def C4wtool : AgentTool :=
  { name := "w", retries := 0, execute := fun _ _ => Except.ok C4okRes }

def C4wtc : ToolCall := { id := "w1", function := { name := "w", arguments := JObj.nil } }

def C5res : ToolResult :=
  { contentPart := [ContentPart.text ("ok")], structuredContent := none,
    isError := false }

def C5tool : AgentTool :=
  { name := "t", retries := 0, execute := fun _ _ => Except.ok C5res }

def C5callMsg : Message :=
  { role := "assistant", contentPart := [],
    toolCalls := [{ id := "c", function := { name := "t", arguments := JObj.nil } }],
    toolCallID := none }

/-- A model that always keeps working: every response calls the tool. -/
def C5client : Int → Except ChatErr RunChatResponse := fun _ =>
  Except.ok { choices := [{ message := some C5callMsg, structuredContent := "" }],
              usage := none }

def C5limits : UsageLimits :=
  { requestLimit := 3, completionTokensLimit := 0, toolCallsLimit := 0 }

def C5P : RunParams Unit :=
  { cfg := AgentNew [C5tool] 0 0 false,
    client := C5client,
    rcfg := { prompt := "go", messages := [], runRetries := none,
              usageLimits := some C5limits },
    dflt := (), decodeOut := fun _ => Except.ok () }

/-- A tool that requests a model retry on every invocation. -/
def C3tool (r : Int) (m : String) : AgentTool :=
  { name := "t", retries := r,
    execute := fun _ _ => Except.error (ExecErr.modelRetry m) }

def C3callMsg : Message :=
  { role := "assistant", contentPart := [],
    toolCalls := [{ id := "c", function := { name := "t", arguments := JObj.nil } }],
    toolCallID := none }

def C3client : Int → Except ChatErr RunChatResponse := fun _ =>
  Except.ok { choices := [{ message := some C3callMsg, structuredContent := "" }],
              usage := none }

def C3P (N : Nat) (m : String) : RunParams Unit :=
  { cfg := AgentNew [C3tool (N : Int) m] 0 0 false,
    client := C3client,
    rcfg := { prompt := "go", messages := [], runRetries := none, usageLimits := none },
    dflt := (), decodeOut := fun _ => Except.ok () }

/-! ## Theorems -/

/-! ## Basic lemmas about the scanning helpers -/

theorem skipWs_not_ws {c : Char} (l : List Char) (h : isWsChar c = false) :
    skipWs (c :: l) = c :: l := by
  simp [skipWs, h]

theorem dropLit_self (p : List Char) (rest : List Char) :
    dropLit p (p ++ rest) = some rest := by
  induction p with
  | nil => rfl
  | cons c cs ih => simp [dropLit, ih]

/-! ## Decimal digit round-trip -/

theorem natDigitsGo_fuel (n : Nat) : ∀ f₁ f₂ : Nat, n < f₁ → n < f₂ →
    natDigitsGo f₁ n = natDigitsGo f₂ n := by
  induction n using Nat.strong_induction_on with
  | _ n ih =>
    intro f₁ f₂ h₁ h₂
    match f₁, f₂ with
    | fa + 1, fb + 1 =>
      by_cases hlt : n < 10
      · simp [natDigitsGo, hlt]
      · have hn : 0 < n := by omega
        have hd : n / 10 < n := Nat.div_lt_self hn (by omega)
        simp only [natDigitsGo, hlt, if_false]
        rw [ih (n / 10) hd fa (n / 10 + 1) (by omega) (by omega),
            ih (n / 10) hd fb (n / 10 + 1) (by omega) (by omega)]

theorem natDigits_unfold (n : Nat) (h : ¬ n < 10) :
    natDigits n = natDigits (n / 10) ++ [decDigit (n % 10)] := by
  have hn : 0 < n := by omega
  have hd : n / 10 < n := Nat.div_lt_self hn (by omega)
  have h1 : natDigits n = natDigitsGo n (n / 10) ++ [decDigit (n % 10)] := by
    simp [natDigits, natDigitsGo, h]
  rw [h1, natDigitsGo_fuel (n / 10) n (n / 10 + 1) hd (by omega)]
  rfl

theorem decDigit_toNat (n : Nat) (h : n < 10) : (decDigit n).toNat = 48 + n := by
  interval_cases n <;> decide

theorem decDigit_digit (n : Nat) (h : n < 10) : isDigitChar (decDigit n) = true := by
  interval_cases n <;> decide

theorem natDigits_all_digit (n : Nat) : ∀ c ∈ natDigits n, isDigitChar c = true := by
  induction n using Nat.strong_induction_on with
  | _ n ih =>
    by_cases hlt : n < 10
    · intro c hc
      simp [natDigits, natDigitsGo, hlt] at hc
      subst hc; exact decDigit_digit n hlt
    · have hn : 0 < n := by omega
      have hd : n / 10 < n := Nat.div_lt_self hn (by omega)
      rw [natDigits_unfold n hlt]
      intro c hc
      rcases List.mem_append.1 hc with h1 | h2
      · exact ih (n / 10) hd c h1
      · simp at h2; subst h2; exact decDigit_digit _ (Nat.mod_lt n (by omega))

theorem natDigits_ne_nil (n : Nat) : natDigits n ≠ [] := by
  by_cases hlt : n < 10
  · simp [natDigits, natDigitsGo, hlt]
  · rw [natDigits_unfold n hlt]; simp

theorem readDigits_run (ds : List Char) : ∀ (a : Nat) (rest : List Char),
    (∀ c ∈ ds, isDigitChar c = true) →
    (∀ c, rest.head? = some c → isDigitChar c = false) →
    readDigits (ds ++ rest) a = (foldDigits a ds, rest) := by
  induction ds with
  | nil =>
    intro a rest _ hrest
    match rest with
    | [] => rfl
    | c :: cs => simp [readDigits, hrest c rfl, foldDigits]
  | cons c cs ih =>
    intro a rest hds hrest
    have hc : isDigitChar c = true := hds c (by simp)
    simp only [List.cons_append, readDigits, hc, if_true, List.append_eq]
    rw [ih _ rest (fun x hx => hds x (by simp [hx])) hrest]
    rfl

theorem foldDigits_natDigits (n : Nat) : ∀ a : Nat,
    foldDigits a (natDigits n) = a * 10 ^ (natDigits n).length + n := by
  induction n using Nat.strong_induction_on with
  | _ n ih =>
    intro a
    by_cases hlt : n < 10
    · simp [natDigits, natDigitsGo, hlt, foldDigits, decDigit_toNat n hlt]
    · have hn : 0 < n := by omega
      have hd : n / 10 < n := Nat.div_lt_self hn (by omega)
      rw [natDigits_unfold n hlt]
      have hfold : foldDigits a (natDigits (n / 10) ++ [decDigit (n % 10)]) =
          foldDigits a (natDigits (n / 10)) * 10 + ((decDigit (n % 10)).toNat - 48) := by
        simp [foldDigits, List.foldl_append]
      rw [hfold, ih (n / 10) hd a, decDigit_toNat _ (Nat.mod_lt n (by omega))]
      have hmod : n / 10 * 10 + n % 10 = n := by omega
      simp [List.length_append, pow_succ]
      ring_nf
      omega

theorem readDigits_natDigits (n : Nat) (rest : List Char)
    (hrest : ∀ c, rest.head? = some c → isDigitChar c = false) :
    readDigits (natDigits n ++ rest) 0 = (n, rest) := by
  rw [readDigits_run (natDigits n) 0 rest (natDigits_all_digit n) hrest,
      foldDigits_natDigits n 0]
  simp

theorem natDigits_head_digit (n : Nat) :
    ∀ c, (natDigits n).head? = some c → isDigitChar c = true := by
  intro c hc
  have hmem : c ∈ natDigits n := by
    match hh : natDigits n with
    | [] => simp [hh] at hc
    | d :: ds => simp [hh] at hc; simp [hh, hc]
  exact natDigits_all_digit n c hmem

/-! ## String body round-trip -/

theorem parseStrBody_esc (l : List Char) (rest : List Char) :
    parseStrBody (escChars l ++ '"' :: rest) = some (l, rest) := by
  induction l with
  | nil =>
    show parseStrBody ([] ++ '"' :: rest) = _
    simp only [List.nil_append]
    rw [parseStrBody.eq_def]
    simp
  | cons c cs ih =>
    by_cases hc : c = '"' ∨ c = '\\'
    · rw [show escChars (c :: cs) = '\\' :: c :: escChars cs from by simp [escChars, hc]]
      simp only [List.cons_append]
      rw [parseStrBody.eq_def]
      simp [hc, ih]
    · push_neg at hc
      rw [show escChars (c :: cs) = c :: escChars cs from by
        simp [escChars, hc.1, hc.2]]
      simp only [List.cons_append]
      rw [parseStrBody.eq_def]
      simp [hc.1, hc.2, ih]

/-! ## Character classification facts -/

theorem digit_ne (c d : Char) (h : isDigitChar c = true)
    (hd : d.toNat < 48 ∨ 57 < d.toNat) : (c = d) = False := by
  have hn : 48 ≤ c.toNat ∧ c.toNat ≤ 57 := by simpa [isDigitChar] using h
  simp only [eq_iff_iff, iff_false]
  rintro rfl
  omega

theorem digit_not_ws (c : Char) (h : isDigitChar c = true) : isWsChar c = false := by
  have hn : 48 ≤ c.toNat ∧ c.toNat ≤ 57 := by simpa [isDigitChar] using h
  simp only [isWsChar, Bool.or_eq_false_iff, decide_eq_false_iff_not]
  refine ⟨⟨⟨?_, ?_⟩, ?_⟩, ?_⟩ <;> (rintro rfl; exact absurd hn (by decide))

/-! ## Head characters of encoded JSON -/

theorem encJson_ne_nil (v : Json) : encJson v ≠ [] := by
  cases v with
  | num n =>
    by_cases hn : n < 0 <;>
      simp [encJson, encInt, hn, natDigits_ne_nil]
  | bool b => cases b <;> simp [encJson]
  | str s => simp [encJson, encStrChars]
  | _ => simp [encJson]

/-- Every property of the head character of an encoded JSON value that the
round-trip argument needs: not whitespace and not a closing/separator
character. -/
theorem encJson_head (v : Json) : ∀ c, (encJson v).head? = some c →
    isWsChar c = false ∧ (c = ']') = False ∧ (c = '}') = False ∧
      (c = ',') = False ∧ (c = ':') = False := by
  intro c hc
  cases v with
  | null =>
    simp [encJson] at hc; subst hc
    refine ⟨by decide, by simp, by simp, by simp, by simp⟩
  | bool b =>
    cases b with
    | true =>
      simp [encJson] at hc; subst hc
      refine ⟨by decide, by simp, by simp, by simp, by simp⟩
    | false =>
      simp [encJson] at hc; subst hc
      refine ⟨by decide, by simp, by simp, by simp, by simp⟩
  | str s =>
    simp [encJson, encStrChars] at hc; subst hc
    refine ⟨by decide, by simp, by simp, by simp, by simp⟩
  | arr xs =>
    simp [encJson] at hc; subst hc
    refine ⟨by decide, by simp, by simp, by simp, by simp⟩
  | obj fs =>
    simp [encJson] at hc; subst hc
    refine ⟨by decide, by simp, by simp, by simp, by simp⟩
  | num n =>
    by_cases hn : n < 0
    · simp [encJson, encInt, hn] at hc; subst hc
      refine ⟨by decide, by simp, by simp, by simp, by simp⟩
    · simp only [encJson, encInt, hn, if_false] at hc
      have hdig : isDigitChar c = true := natDigits_head_digit _ c hc
      exact ⟨digit_not_ws c hdig, digit_ne c ']' hdig (by decide),
        digit_ne c '}' hdig (by decide), digit_ne c ',' hdig (by decide),
        digit_ne c ':' hdig (by decide)⟩

theorem jsize_pos (v : Json) : 1 ≤ jsize v := by
  cases v <;> simp [jsize]

theorem encArr_cons (v : Json) (tl : JArr) :
    encArr (.cons v tl) = encJson v ++ encArrTail tl := by
  cases tl <;> simp [encArr, encArrTail]

theorem encObj_cons (k : String) (v : Json) (tl : JObj) :
    encObj (.cons k v tl) = encStrChars k ++ ':' :: encJson v ++ encObjTail tl := by
  cases tl <;> simp [encObj, encObjTail]

theorem delimOk_of_head (v : Json) (rest : List Char)
    (h : ∀ c, rest.head? = some c → isDigitChar c = false) : delimOk v rest := by
  cases v <;> cases rest <;> simp_all [delimOk]

theorem delimOk_nil (v : Json) : delimOk v [] := by
  cases v <;> simp [delimOk]

theorem delimOk_digit {n : Int} {rest : List Char} (hdel : delimOk (.num n) rest) :
    ∀ c, rest.head? = some c → isDigitChar c = false := by
  intro c hc
  cases rest with
  | nil => simp at hc
  | cons c' cs =>
    simp at hc
    subst hc
    simpa [delimOk] using hdel

/-! ## Parser / encoder round-trip -/

mutual

theorem parseVal_enc : ∀ (v : Json) (fuel : Nat) (rest : List Char),
    jsize v ≤ fuel → delimOk v rest → parseVal fuel (encJson v ++ rest) = some (v, rest)
  | v, 0, _, hf, _ => by have := jsize_pos v; omega
  | .null, f + 1, rest, _, _ => by
    simp [encJson, parseVal, skipWs, isWsChar, dropLit]
  | .bool true, f + 1, rest, _, _ => by
    simp [encJson, parseVal, skipWs, isWsChar, dropLit]
  | .bool false, f + 1, rest, _, _ => by
    simp [encJson, parseVal, skipWs, isWsChar, dropLit]
  | .str s, f + 1, rest, _, _ => by
    rw [show encJson (.str s) ++ rest = '"' :: (escChars s.data ++ '"' :: rest) from by
      simp [encJson, encStrChars]]
    simp [parseVal, skipWs, isWsChar, parseStrBody_esc]
  | .num n, f + 1, rest, _, hdel => by
    have hrest := delimOk_digit hdel
    by_cases hneg : n < 0
    · rw [show encJson (.num n) ++ rest = '-' :: (natDigits n.natAbs ++ rest) from by
        simp [encJson, encInt, hneg]]
      obtain ⟨d, ds, hds⟩ : ∃ d ds, natDigits n.natAbs = d :: ds := by
        cases h : natDigits n.natAbs with
        | nil => exact absurd h (natDigits_ne_nil _)
        | cons d ds => exact ⟨d, ds, rfl⟩
      have hdig : isDigitChar d = true := natDigits_head_digit _ d (by rw [hds]; rfl)
      have hread' : readDigits (d :: (ds ++ rest)) 0 = (n.natAbs, rest) := by
        rw [show d :: (ds ++ rest) = natDigits n.natAbs ++ rest from by rw [hds]; simp]
        exact readDigits_natDigits n.natAbs rest hrest
      rw [hds]
      simp [parseVal, skipWs, isWsChar, hdig, hread']
      rw [abs_of_neg hneg, neg_neg]
    · rw [show encJson (.num n) ++ rest = natDigits n.toNat ++ rest from by
        simp [encJson, encInt, hneg]]
      obtain ⟨d, ds, hds⟩ : ∃ d ds, natDigits n.toNat = d :: ds := by
        cases h : natDigits n.toNat with
        | nil => exact absurd h (natDigits_ne_nil _)
        | cons d ds => exact ⟨d, ds, rfl⟩
      have hdig : isDigitChar d = true := natDigits_head_digit _ d (by rw [hds]; rfl)
      have hread' : readDigits (d :: (ds ++ rest)) 0 = (n.toNat, rest) := by
        rw [show d :: (ds ++ rest) = natDigits n.toNat ++ rest from by rw [hds]; simp]
        exact readDigits_natDigits n.toNat rest hrest
      rw [hds]
      simp only [List.cons_append, parseVal]
      rw [skipWs_not_ws _ (digit_not_ws d hdig)]
      simp only [digit_ne d 'n' hdig (by decide), digit_ne d 't' hdig (by decide),
        digit_ne d 'f' hdig (by decide), digit_ne d '"' hdig (by decide),
        digit_ne d '[' hdig (by decide), digit_ne d '{' hdig (by decide),
        digit_ne d '-' hdig (by decide), if_false, hdig, if_true]
      simp [hread']
      omega
  | .arr .nil, f + 1, rest, _, _ => by
    rw [show encJson (.arr .nil) ++ rest = '[' :: ']' :: rest from by
      simp [encJson, encArr]]
    simp [parseVal, skipWs, isWsChar]
  | .arr (.cons hd tl), f + 1, rest, hf, _ => by
    have hsize : jsizeA (JArr.cons hd tl) ≤ f := by
      simp only [jsize] at hf; omega
    rw [show encJson (.arr (.cons hd tl)) ++ rest
        = '[' :: (encArr (.cons hd tl) ++ ']' :: rest) from by simp [encJson]]
    obtain ⟨c, cs, hcs⟩ : ∃ c cs, encJson hd = c :: cs := by
      cases h : encJson hd with
      | nil => exact absurd h (encJson_ne_nil _)
      | cons c cs => exact ⟨c, cs, rfl⟩
    have hh := encJson_head hd c (by rw [hcs]; rfl)
    have hin : encArr (JArr.cons hd tl) ++ ']' :: rest
        = c :: (cs ++ (encArrTail tl ++ ']' :: rest)) := by
      rw [encArr_cons, hcs]; simp
    simp only [parseVal]
    rw [skipWs_not_ws _ (by decide)]
    simp only [show (('[' : Char) = 'n') = False by simp,
      show (('[' : Char) = 't') = False by simp,
      show (('[' : Char) = 'f') = False by simp,
      show (('[' : Char) = '"') = False by simp,
      if_false, if_pos rfl]
    rw [hin, skipWs_not_ws _ hh.1]
    simp only [hh.2.1, if_false]
    rw [← hin, parseItems_enc (JArr.cons hd tl) f rest (by simp) hsize]
    simp
  | .obj .nil, f + 1, rest, _, _ => by
    rw [show encJson (.obj .nil) ++ rest = '{' :: '}' :: rest from by
      simp [encJson, encObj]]
    simp [parseVal, skipWs, isWsChar]
  | .obj (.cons k v tl), f + 1, rest, hf, _ => by
    have hsize : jsizeO (JObj.cons k v tl) ≤ f := by
      simp only [jsize] at hf; omega
    rw [show encJson (.obj (.cons k v tl)) ++ rest
        = '{' :: (encObj (.cons k v tl) ++ '}' :: rest) from by simp [encJson]]
    have hin : encObj (JObj.cons k v tl) ++ '}' :: rest
        = '"' :: ((escChars k.data ++ ['"'])
            ++ (':' :: encJson v ++ encObjTail tl ++ '}' :: rest)) := by
      rw [encObj_cons]; simp [encStrChars]
    simp only [parseVal]
    rw [skipWs_not_ws _ (by decide)]
    simp only [show (('{' : Char) = 'n') = False by simp,
      show (('{' : Char) = 't') = False by simp,
      show (('{' : Char) = 'f') = False by simp,
      show (('{' : Char) = '"') = False by simp,
      show (('{' : Char) = '[') = False by simp,
      if_false, if_pos rfl]
    rw [hin, skipWs_not_ws _ (by decide)]
    simp only [show (('"' : Char) = '}') = False by simp, if_false]
    rw [← hin, parseFields_enc (JObj.cons k v tl) f rest (by simp) hsize]
    simp

theorem parseItems_enc : ∀ (xs : JArr) (fuel : Nat) (rest : List Char),
    xs ≠ .nil → jsizeA xs ≤ fuel → parseItems fuel (encArr xs ++ ']' :: rest) = some (xs, rest)
  | .nil, _, _, hne, _ => absurd rfl hne
  | .cons v _, 0, _, _, hf => by
    simp [jsizeA] at hf
  | .cons v .nil, f + 1, rest, _, hf => by
    have hv : jsize v ≤ f := by simp [jsizeA] at hf; omega
    rw [show encArr (JArr.cons v JArr.nil) ++ ']' :: rest = encJson v ++ (']' :: rest) from by
      rw [encArr_cons]
      show (encJson v ++ encArrTail JArr.nil) ++ ']' :: rest = _
      simp [encArrTail]]
    have hpv := parseVal_enc v f (']' :: rest) hv
      (delimOk_of_head v _ (by intro c hc; simp at hc; subst hc; decide))
    simp only [parseItems]
    simp [hpv, skipWs, isWsChar]
  | .cons v (.cons a b), f + 1, rest, _, hf => by
    have hv : jsize v ≤ f := by simp [jsizeA] at hf; omega
    have htl : jsizeA (JArr.cons a b) ≤ f := by simp [jsizeA] at hf ⊢; omega
    rw [show encArr (JArr.cons v (JArr.cons a b)) ++ ']' :: rest
        = encJson v ++ (',' :: (encArr (JArr.cons a b) ++ ']' :: rest)) from by
      rw [encArr_cons]
      show (encJson v ++ encArrTail (JArr.cons a b)) ++ ']' :: rest = _
      rw [show encArrTail (JArr.cons a b) = ',' :: encArr (JArr.cons a b) from rfl]
      simp]
    have hpv := parseVal_enc v f (',' :: (encArr (JArr.cons a b) ++ ']' :: rest)) hv
      (delimOk_of_head v _ (by intro c hc; simp at hc; subst hc; decide))
    have hpi := parseItems_enc (JArr.cons a b) f rest (by simp) htl
    have hsk : skipWs (',' :: (encArr (JArr.cons a b) ++ ']' :: rest))
        = ',' :: (encArr (JArr.cons a b) ++ ']' :: rest) := skipWs_not_ws _ (by decide)
    simp only [parseItems]
    simp [hpv, hsk, hpi]

theorem parseFields_enc : ∀ (fs : JObj) (fuel : Nat) (rest : List Char),
    fs ≠ .nil → jsizeO fs ≤ fuel → parseFields fuel (encObj fs ++ '}' :: rest) = some (fs, rest)
  | .nil, _, _, hne, _ => absurd rfl hne
  | .cons _ v _, 0, _, _, hf => by
    simp [jsizeO] at hf
  | .cons k v .nil, f + 1, rest, _, hf => by
    have hv : jsize v ≤ f := by simp [jsizeO] at hf; omega
    rw [show encObj (JObj.cons k v JObj.nil) ++ '}' :: rest
        = '"' :: (escChars k.data ++ '"' :: (':' :: (encJson v ++ ('}' :: rest)))) from by
      rw [encObj_cons]
      show (encStrChars k ++ ':' :: encJson v ++ encObjTail JObj.nil) ++ '}' :: rest = _
      simp [encObjTail, encStrChars]]
    have hpv := parseVal_enc v f ('}' :: rest) hv
      (delimOk_of_head v _ (by intro c hc; simp at hc; subst hc; decide))
    simp only [parseFields]
    rw [skipWs_not_ws _ (by decide)]
    simp only [if_pos rfl, parseStrBody_esc]
    rw [show skipWs (':' :: (encJson v ++ ('}' :: rest)))
        = ':' :: (encJson v ++ ('}' :: rest)) from skipWs_not_ws _ (by decide)]
    simp [hpv, skipWs, isWsChar]
  | .cons k v (.cons k2 v2 tl2), f + 1, rest, _, hf => by
    have hv : jsize v ≤ f := by simp [jsizeO] at hf; omega
    have htl : jsizeO (JObj.cons k2 v2 tl2) ≤ f := by simp [jsizeO] at hf ⊢; omega
    rw [show encObj (JObj.cons k v (JObj.cons k2 v2 tl2)) ++ '}' :: rest
        = '"' :: (escChars k.data ++ '"' :: (':' :: (encJson v
            ++ (',' :: (encObj (JObj.cons k2 v2 tl2) ++ '}' :: rest))))) from by
      rw [encObj_cons]
      show (encStrChars k ++ ':' :: encJson v ++ encObjTail (JObj.cons k2 v2 tl2))
          ++ '}' :: rest = _
      rw [show encObjTail (JObj.cons k2 v2 tl2) = ',' :: encObj (JObj.cons k2 v2 tl2) from rfl]
      simp [encStrChars]]
    have hpv := parseVal_enc v f (',' :: (encObj (JObj.cons k2 v2 tl2) ++ '}' :: rest)) hv
      (delimOk_of_head v _ (by intro c hc; simp at hc; subst hc; decide))
    have hpf := parseFields_enc (JObj.cons k2 v2 tl2) f rest (by simp) htl
    have hsk : skipWs (',' :: (encObj (JObj.cons k2 v2 tl2) ++ '}' :: rest))
        = ',' :: (encObj (JObj.cons k2 v2 tl2) ++ '}' :: rest) := skipWs_not_ws _ (by decide)
    simp only [parseFields]
    rw [skipWs_not_ws _ (by decide)]
    simp only [if_pos rfl, parseStrBody_esc]
    rw [show skipWs (':' :: (encJson v ++ (',' :: (encObj (JObj.cons k2 v2 tl2) ++ '}' :: rest))))
        = ':' :: (encJson v ++ (',' :: (encObj (JObj.cons k2 v2 tl2) ++ '}' :: rest)))
        from skipWs_not_ws _ (by decide)]
    simp [hpv, hsk, hpf]

end

mutual

theorem jsize_le_encLen : ∀ v : Json, jsize v ≤ (encJson v).length
  | .null => by simp [jsize, encJson]
  | .bool true => by simp [jsize, encJson]
  | .bool false => by simp [jsize, encJson]
  | .num n => by
    simp only [jsize, encJson]
    by_cases hneg : n < 0
    · simp [encInt, hneg]
    · simp only [encInt, hneg, if_false]
      exact List.length_pos.2 (natDigits_ne_nil _)
  | .str s => by simp [jsize, encJson, encStrChars]
  | .arr xs => by
    have := jsizeA_le_encLen xs
    simp only [jsize, encJson]
    simp
    omega
  | .obj fs => by
    have := jsizeO_le_encLen fs
    simp only [jsize, encJson]
    simp
    omega

theorem jsizeA_le_encLen : ∀ xs : JArr, jsizeA xs ≤ (encArr xs).length + 1
  | .nil => by simp [jsizeA, encArr]
  | .cons v .nil => by
    have := jsize_le_encLen v
    simp [jsizeA, jsizeA.eq_1, encArr]
    omega
  | .cons v (.cons a b) => by
    have h1 := jsize_le_encLen v
    have h2 := jsizeA_le_encLen (JArr.cons a b)
    simp only [jsizeA] at h2
    simp only [jsizeA, encArr]
    simp
    omega

theorem jsizeO_le_encLen : ∀ fs : JObj, jsizeO fs ≤ (encObj fs).length + 1
  | .nil => by simp [jsizeO, encObj]
  | .cons k v .nil => by
    have := jsize_le_encLen v
    simp [jsizeO, jsizeO.eq_1, encObj, encStrChars]
    omega
  | .cons k v (.cons k2 v2 t) => by
    have h1 := jsize_le_encLen v
    have h2 := jsizeO_le_encLen (JObj.cons k2 v2 t)
    simp only [jsizeO] at h2
    simp only [jsizeO, encObj, encStrChars]
    simp
    omega

end

theorem parseJson_enc (v : Json) : parseJson (encJson v) = some v := by
  have h := parseVal_enc v ((encJson v).length + 1) []
    (le_trans (jsize_le_encLen v) (by omega)) (delimOk_nil v)
  rw [List.append_nil] at h
  simp [parseJson, h, skipWs]

theorem isValidJSON_enc (v : Json) : isValidJSON (encJson v) = true := by
  simp [isValidJSON, parseJson_enc]

theorem digit_ne' (c d : Char) (h : isDigitChar c = true)
    (hd : d.toNat < 48 ∨ 57 < d.toNat) : c ≠ d := fun hcd => (digit_ne c d h hd) ▸ hcd

theorem digit_safe (c : Char) (h : isDigitChar c = true) : safeChar c = true := by
  simp only [safeChar, Bool.not_eq_true', Bool.or_eq_false_iff, decide_eq_false_iff_not]
  exact ⟨⟨⟨⟨⟨digit_ne' c _ h (by decide), digit_ne' c _ h (by decide)⟩,
    digit_ne' c _ h (by decide)⟩, digit_ne' c _ h (by decide)⟩,
    digit_ne' c _ h (by decide)⟩, digit_ne' c _ h (by decide)⟩

theorem safe_conds {oc cc c : Char} (hm : modeOk oc cc) (hs : safeChar c = true) :
    c ≠ '\\' ∧ c ≠ '"' ∧ c ≠ oc ∧ c ≠ cc := by
  simp only [safeChar, Bool.not_eq_true', Bool.or_eq_false_iff, decide_eq_false_iff_not] at hs
  rcases hm with ⟨rfl, rfl⟩ | ⟨rfl, rfl⟩ <;> tauto

theorem findMB_skip {oc cc c : Char} (cs : List Char) (d : Int) (i : Nat)
    (h1 : c ≠ '\\') (h2 : c ≠ '"') (h3 : c ≠ oc) (h4 : c ≠ cc) :
    findMBAux oc cc (c :: cs) d false false i = findMBAux oc cc cs d false false (i + 1) := by
  simp [findMBAux, h1, h2, h3, h4]

theorem findMB_plains {oc cc : Char} (hm : modeOk oc cc) (l : List Char) :
    ∀ (rest : List Char) (d : Int) (i : Nat), (∀ c ∈ l, safeChar c = true) →
    findMBAux oc cc (l ++ rest) d false false i
      = findMBAux oc cc rest d false false (i + l.length) := by
  induction l with
  | nil => intro rest d i _; simp
  | cons c cs ih =>
    intro rest d i hs
    obtain ⟨h1, h2, h3, h4⟩ := safe_conds hm (hs c (by simp))
    rw [List.cons_append, findMB_skip _ _ _ h1 h2 h3 h4, ih rest d (i+1) (fun x hx => hs x (by simp [hx]))]
    congr 1
    simp
    omega

theorem findMB_instr_skip {oc cc c : Char} (cs : List Char) (d : Int) (i : Nat)
    (h1 : c ≠ '\\') (h2 : c ≠ '"') :
    findMBAux oc cc (c :: cs) d true false i = findMBAux oc cc cs d true false (i + 1) := by
  simp [findMBAux, h1, h2]

theorem findMB_esc_pair {oc cc : Char} (c : Char) (cs : List Char) (d : Int) (i : Nat) :
    findMBAux oc cc ('\\' :: c :: cs) d true false i
      = findMBAux oc cc cs d true false (i + 2) := by
  rw [show findMBAux oc cc ('\\' :: c :: cs) d true false i
      = findMBAux oc cc (c :: cs) d true true (i + 1) from by simp [findMBAux]]
  rw [show findMBAux oc cc (c :: cs) d true true (i + 1)
      = findMBAux oc cc cs d true false (i + 2) from by simp [findMBAux]]

theorem findMB_quote {oc cc : Char} (cs : List Char) (d : Int) (b : Bool) (i : Nat) :
    findMBAux oc cc ('"' :: cs) d b false i = findMBAux oc cc cs d (!b) false (i + 1) := by
  simp [findMBAux]

theorem findMB_str {oc cc : Char} (l : List Char) :
    ∀ (rest : List Char) (d : Int) (i : Nat),
    findMBAux oc cc (escChars l ++ '"' :: rest) d true false i
      = findMBAux oc cc rest d false false (i + (escChars l).length + 1) := by
  induction l with
  | nil =>
    intro rest d i
    simp [escChars, findMB_quote]
  | cons c cs ih =>
    intro rest d i
    by_cases hc : c = '"' ∨ c = '\\'
    · rw [show escChars (c :: cs) = '\\' :: c :: escChars cs from by simp [escChars, hc]]
      simp only [List.cons_append]
      rw [findMB_esc_pair, ih rest d (i + 2)]
      congr 1
      simp [escChars, hc]
      omega
    · push_neg at hc
      rw [show escChars (c :: cs) = c :: escChars cs from by simp [escChars, hc.1, hc.2]]
      simp only [List.cons_append]
      rw [findMB_instr_skip _ _ _ hc.2 hc.1, ih rest d (i + 1)]
      congr 1
      simp [escChars, hc.1, hc.2]
      omega

theorem encLen_arr (xs : JArr) : (encJson (.arr xs)).length = (encArr xs).length + 2 := by
  simp [encJson]

theorem encLen_obj (fs : JObj) : (encJson (.obj fs)).length = (encObj fs).length + 2 := by
  simp [encJson]

theorem encArrTail_cons (a : Json) (b : JArr) :
    encArrTail (JArr.cons a b) = ',' :: encArr (JArr.cons a b) := rfl

theorem encObjTail_cons (k : String) (v : Json) (tl : JObj) :
    encObjTail (JObj.cons k v tl) = ',' :: encObj (JObj.cons k v tl) := rfl

theorem encInt_safe (n : Int) : ∀ c ∈ encInt n, safeChar c = true := by
  intro c hc
  by_cases hneg : n < 0
  · simp [encInt, hneg] at hc
    rcases hc with rfl | hc
    · decide
    · exact digit_safe c (natDigits_all_digit _ c hc)
  · simp [encInt, hneg] at hc
    exact digit_safe c (natDigits_all_digit _ c hc)

mutual

theorem findMB_val {oc cc : Char} (hm : modeOk oc cc) :
    ∀ (v : Json) (rest : List Char) (d : Int) (i : Nat), 1 ≤ d →
    findMBAux oc cc (encJson v ++ rest) d false false i
      = findMBAux oc cc rest d false false (i + (encJson v).length)
  | .null, rest, d, i, _ => by
    rw [show encJson .null = ['n', 'u', 'l', 'l'] from rfl,
      findMB_plains hm _ rest d i (by decide)]
  | .bool true, rest, d, i, _ => by
    rw [show encJson (.bool true) = ['t', 'r', 'u', 'e'] from rfl,
      findMB_plains hm _ rest d i (by decide)]
  | .bool false, rest, d, i, _ => by
    rw [show encJson (.bool false) = ['f', 'a', 'l', 's', 'e'] from rfl,
      findMB_plains hm _ rest d i (by decide)]
  | .num n, rest, d, i, _ => by
    rw [show encJson (.num n) = encInt n from rfl,
      findMB_plains hm _ rest d i (encInt_safe n)]
  | .str s, rest, d, i, _ => by
    rw [show encJson (.str s) ++ rest = '"' :: (escChars s.data ++ '"' :: rest) from by
      simp [encJson, encStrChars]]
    rw [findMB_quote]
    simp only [Bool.not_false]
    rw [findMB_str]
    congr 1
    simp [encJson, encStrChars]
    omega
  | .arr xs, rest, d, i, hd => by
    rw [show encJson (.arr xs) ++ rest = '[' :: (encArr xs ++ ']' :: rest) from by
      simp [encJson]]
    rcases hm with ⟨rfl, rfl⟩ | ⟨rfl, rfl⟩
    · rw [findMB_skip _ _ _ (by decide) (by decide) (by decide) (by decide)]
      rw [findMB_items (Or.inl ⟨rfl, rfl⟩) xs (']' :: rest) d (i + 1) hd]
      rw [findMB_skip _ _ _ (by decide) (by decide) (by decide) (by decide)]
      congr 1
      rw [encLen_arr]
      omega
    · rw [show findMBAux '[' ']' ('[' :: (encArr xs ++ ']' :: rest)) d false false i
          = findMBAux '[' ']' (encArr xs ++ ']' :: rest) (d + 1) false false (i + 1) from by
        simp [findMBAux]]
      rw [findMB_items (Or.inr ⟨rfl, rfl⟩) xs (']' :: rest) (d + 1) (i + 1) (by omega)]
      rw [show findMBAux '[' ']' (']' :: rest) (d + 1) false false (i + 1 + (encArr xs).length)
          = findMBAux '[' ']' rest (d + 1 - 1) false false (i + 1 + (encArr xs).length + 1) from by
        rw [findMBAux]
        simp only [if_neg (by omega : ¬(d + 1 - 1 = 0))]
        simp [if_neg (by decide : ¬((']' : Char) = '\\' ∧ False = true))]]
      rw [show d + 1 - 1 = d from by omega]
      congr 1
      rw [encLen_arr]
      omega
  | .obj fs, rest, d, i, hd => by
    rw [show encJson (.obj fs) ++ rest = '{' :: (encObj fs ++ '}' :: rest) from by
      simp [encJson]]
    rcases hm with ⟨rfl, rfl⟩ | ⟨rfl, rfl⟩
    · rw [show findMBAux '{' '}' ('{' :: (encObj fs ++ '}' :: rest)) d false false i
          = findMBAux '{' '}' (encObj fs ++ '}' :: rest) (d + 1) false false (i + 1) from by
        simp [findMBAux]]
      rw [findMB_fields (Or.inl ⟨rfl, rfl⟩) fs ('}' :: rest) (d + 1) (i + 1) (by omega)]
      rw [show findMBAux '{' '}' ('}' :: rest) (d + 1) false false (i + 1 + (encObj fs).length)
          = findMBAux '{' '}' rest (d + 1 - 1) false false (i + 1 + (encObj fs).length + 1) from by
        rw [findMBAux]
        simp only [if_neg (by omega : ¬(d + 1 - 1 = 0))]
        simp [if_neg (by decide : ¬(('}' : Char) = '\\' ∧ False = true))]]
      rw [show d + 1 - 1 = d from by omega]
      congr 1
      rw [encLen_obj]
      omega
    · rw [findMB_skip _ _ _ (by decide) (by decide) (by decide) (by decide)]
      rw [findMB_fields (Or.inr ⟨rfl, rfl⟩) fs ('}' :: rest) d (i + 1) hd]
      rw [findMB_skip _ _ _ (by decide) (by decide) (by decide) (by decide)]
      congr 1
      rw [encLen_obj]
      omega

theorem findMB_items {oc cc : Char} (hm : modeOk oc cc) :
    ∀ (xs : JArr) (rest : List Char) (d : Int) (i : Nat), 1 ≤ d →
    findMBAux oc cc (encArr xs ++ rest) d false false i
      = findMBAux oc cc rest d false false (i + (encArr xs).length)
  | .nil, rest, d, i, _ => by simp [encArr]
  | .cons v tl, rest, d, i, hd => by
    rw [show encArr (JArr.cons v tl) ++ rest = encJson v ++ (encArrTail tl ++ rest) from by
      rw [encArr_cons]; simp]
    rw [findMB_val hm v (encArrTail tl ++ rest) d i hd]
    cases tl with
    | nil =>
      simp [encArrTail, encArr_cons, encArr]
    | cons a b =>
      rw [show encArrTail (JArr.cons a b) ++ rest = ',' :: (encArr (JArr.cons a b) ++ rest)
          from by rw [show encArrTail (JArr.cons a b) = ',' :: encArr (JArr.cons a b) from rfl]; simp]
      obtain ⟨h1, h2, h3, h4⟩ := safe_conds hm (c := ',') (by decide)
      rw [findMB_skip _ _ _ h1 h2 h3 h4]
      rw [findMB_items hm (JArr.cons a b) rest d _ hd]
      congr 1
      simp [encArr_cons, encArrTail_cons]
      omega

theorem findMB_fields {oc cc : Char} (hm : modeOk oc cc) :
    ∀ (fs : JObj) (rest : List Char) (d : Int) (i : Nat), 1 ≤ d →
    findMBAux oc cc (encObj fs ++ rest) d false false i
      = findMBAux oc cc rest d false false (i + (encObj fs).length)
  | .nil, rest, d, i, _ => by simp [encObj]
  | .cons k v tl, rest, d, i, hd => by
    rw [show encObj (JObj.cons k v tl) ++ rest
        = '"' :: (escChars k.data ++ '"' :: (':' :: (encJson v ++ (encObjTail tl ++ rest))))
        from by rw [encObj_cons]; simp [encStrChars]]
    rw [findMB_quote]
    simp only [Bool.not_false]
    rw [findMB_str]
    obtain ⟨g1, g2, g3, g4⟩ := safe_conds hm (c := ':') (by decide)
    rw [findMB_skip _ _ _ g1 g2 g3 g4]
    rw [findMB_val hm v (encObjTail tl ++ rest) d _ hd]
    cases tl with
    | nil =>
      rw [show encObjTail JObj.nil ++ rest = rest from by simp [encObjTail]]
      congr 1
      simp [encObj_cons, encObjTail, encStrChars]
      omega
    | cons k2 v2 tl2 =>
      rw [show encObjTail (JObj.cons k2 v2 tl2) ++ rest = ',' :: (encObj (JObj.cons k2 v2 tl2) ++ rest)
          from by rw [show encObjTail (JObj.cons k2 v2 tl2) = ',' :: encObj (JObj.cons k2 v2 tl2) from rfl]; simp]
      obtain ⟨h1, h2, h3, h4⟩ := safe_conds hm (c := ',') (by decide)
      rw [findMB_skip _ _ _ h1 h2 h3 h4]
      rw [findMB_fields hm (JObj.cons k2 v2 tl2) rest d _ hd]
      congr 1
      simp [encObj_cons, encObjTail_cons, encStrChars]
      omega

end

theorem findMB_top_obj (fs : JObj) (rest : List Char) :
    findMatchingBrace (encJson (.obj fs) ++ rest) '{' '}'
      = some ((encJson (.obj fs)).length - 1) := by
  unfold findMatchingBrace
  rw [show encJson (.obj fs) ++ rest = '{' :: (encObj fs ++ '}' :: rest) from by simp [encJson]]
  rw [show findMBAux '{' '}' ('{' :: (encObj fs ++ '}' :: rest)) 0 false false 0
      = findMBAux '{' '}' (encObj fs ++ '}' :: rest) 1 false false 1 from by simp [findMBAux]]
  rw [findMB_fields (Or.inl ⟨rfl, rfl⟩) fs ('}' :: rest) 1 1 (by omega)]
  rw [show findMBAux '{' '}' ('}' :: rest) 1 false false (1 + (encObj fs).length)
      = some (1 + (encObj fs).length) from by rw [findMBAux]; simp]
  congr 1
  rw [encLen_obj]
  omega

theorem findMB_top_arr (xs : JArr) (rest : List Char) :
    findMatchingBrace (encJson (.arr xs) ++ rest) '[' ']'
      = some ((encJson (.arr xs)).length - 1) := by
  unfold findMatchingBrace
  rw [show encJson (.arr xs) ++ rest = '[' :: (encArr xs ++ ']' :: rest) from by simp [encJson]]
  rw [show findMBAux '[' ']' ('[' :: (encArr xs ++ ']' :: rest)) 0 false false 0
      = findMBAux '[' ']' (encArr xs ++ ']' :: rest) 1 false false 1 from by simp [findMBAux]]
  rw [findMB_items (Or.inr ⟨rfl, rfl⟩) xs (']' :: rest) 1 1 (by omega)]
  rw [show findMBAux '[' ']' (']' :: rest) 1 false false (1 + (encArr xs).length)
      = some (1 + (encArr xs).length) from by rw [findMBAux]; simp]
  congr 1
  rw [encLen_arr]
  omega

theorem encJson_last (v : Json) : ∀ c, (encJson v).getLast? = some c → isWsChar c = false := by
  intro c hc
  cases v with
  | null => simp [encJson] at hc; subst hc; decide
  | bool b => cases b <;> (simp [encJson] at hc; subst hc; decide)
  | num n =>
    have key : ∀ m : Nat, (natDigits m).getLast? = some c → isWsChar c = false := by
      intro m hlast
      have hne := natDigits_ne_nil m
      rw [List.getLast?_eq_getLast_of_ne_nil hne] at hlast
      have hc' : c ∈ natDigits m := by
        have := List.getLast_mem hne
        simp at hlast
        rw [← hlast]
        exact this
      exact digit_not_ws c (natDigits_all_digit m c hc')
    by_cases hneg : n < 0
    · rw [show encJson (.num n) = ['-'] ++ natDigits n.natAbs from by
        simp [encJson, encInt, hneg]] at hc
      rw [List.getLast?_append_of_ne_nil _ (natDigits_ne_nil _)] at hc
      exact key _ hc
    · rw [show encJson (.num n) = natDigits n.toNat from by
        simp [encJson, encInt, hneg]] at hc
      exact key _ hc
  | str s =>
    rw [show encJson (.str s) = ('"' :: escChars s.data) ++ ['"'] from by
      simp [encStrChars, encJson]] at hc
    rw [List.getLast?_concat] at hc
    simp at hc; subst hc; decide
  | arr xs =>
    rw [show encJson (.arr xs) = ('[' :: encArr xs) ++ [']'] from by simp [encJson]] at hc
    rw [List.getLast?_concat] at hc
    simp at hc; subst hc; decide
  | obj fs =>
    rw [show encJson (.obj fs) = ('{' :: encObj fs) ++ ['}'] from by simp [encJson]] at hc
    rw [List.getLast?_concat] at hc
    simp at hc; subst hc; decide

theorem skipWs_eq_self {l : List Char} (hh : ∀ c, l.head? = some c → isWsChar c = false) :
    skipWs l = l := by
  cases l with
  | nil => rfl
  | cons c cs => exact skipWs_not_ws cs (hh c rfl)

theorem skipWs_append_keep (x : List Char) {y : List Char}
    (hy : ∀ c, y.head? = some c → isWsChar c = false) (hny : y ≠ []) :
    skipWs (x ++ y) = skipWs x ++ y := by
  induction x with
  | nil =>
    simp [skipWs, skipWs_eq_self hy]
  | cons c cs ih =>
    by_cases hw : isWsChar c = true
    · simp [skipWs, hw, ih]
    · simp only [Bool.not_eq_true] at hw
      simp [skipWs, hw]

theorem skipWs_sublist (l : List Char) : ∀ c ∈ skipWs l, c ∈ l := by
  induction l with
  | nil => simp [skipWs]
  | cons c cs ih =>
    intro x hx
    by_cases hw : isWsChar c = true
    · simp only [skipWs, hw, if_true] at hx
      exact List.mem_cons_of_mem c (ih x hx)
    · simp only [Bool.not_eq_true] at hw
      simp only [skipWs, hw] at hx
      simpa using hx

theorem rtrim_subset (l : List Char) : ∀ c ∈ rtrimChars l, c ∈ l := by
  intro c hc
  simp only [rtrimChars, List.mem_reverse] at hc
  have := skipWs_sublist l.reverse c hc
  simpa using this

theorem trimChars_around (p1 m p2 : List Char) (hm : m ≠ [])
    (hh : ∀ c, m.head? = some c → isWsChar c = false)
    (hl : ∀ c, m.getLast? = some c → isWsChar c = false) :
    trimChars (p1 ++ (m ++ p2)) = skipWs p1 ++ (m ++ rtrimChars p2) := by
  have h1 : skipWs (p1 ++ (m ++ p2)) = skipWs p1 ++ (m ++ p2) := by
    apply skipWs_append_keep
    · intro c hc
      cases m with
      | nil => exact absurd rfl hm
      | cons a as => exact hh c (by simpa using hc)
    · cases m with
      | nil => exact absurd rfl hm
      | cons a as => simp
  have hmr : m.reverse ≠ [] := by simpa using hm
  have h2 : skipWs ((skipWs p1 ++ (m ++ p2)).reverse)
      = skipWs p2.reverse ++ (m.reverse ++ (skipWs p1).reverse) := by
    rw [show (skipWs p1 ++ (m ++ p2)).reverse
        = p2.reverse ++ (m.reverse ++ (skipWs p1).reverse) from by simp]
    apply skipWs_append_keep
    · intro c hc
      have hc' : m.reverse.head? = some c := by
        cases hrev : m.reverse with
        | nil => exact absurd hrev hmr
        | cons a as =>
          rw [hrev] at hc
          simpa using hc
      rw [List.head?_reverse] at hc'
      exact hl c hc'
    · intro hcon
      rw [List.append_eq_nil] at hcon
      exact hmr hcon.1
  simp only [trimChars, h1, h2]
  simp [rtrimChars]

theorem trimChars_noop (l : List Char)
    (hh : ∀ c, l.head? = some c → isWsChar c = false)
    (hl : ∀ c, l.getLast? = some c → isWsChar c = false) :
    trimChars l = l := by
  cases l with
  | nil => rfl
  | cons a as =>
    have := trimChars_around [] (a :: as) [] (by simp) hh hl
    simpa [skipWs, rtrimChars] using this

theorem idxOf_append_left {p : List Char} {c : Char} (rest : List Char) (h : c ∉ p) :
    idxOf (p ++ rest) c = (idxOf rest c).map (· + p.length) := by
  induction p with
  | nil => simp
  | cons a as ih =>
    have ha : ¬ a = c := fun hac => h (by simp [hac])
    simp only [List.cons_append, idxOf, ha, if_false, List.append_eq]
    rw [ih (fun hc => h (by simp [hc]))]
    cases idxOf rest c <;> simp <;> omega

theorem idxOf_cons_self (c : Char) (l : List Char) : idxOf (c :: l) c = some 0 := by
  simp [idxOf]

theorem idxOf_cons_ne {a c : Char} (l : List Char) (h : ¬ a = c) :
    idxOf (a :: l) c = (idxOf l c).map (· + 1) := by
  simp [idxOf, h]

theorem findSub_of_no_backtick {l : List Char} (h : '`' ∉ l) :
    findSub l backtickFence = none := by
  induction l with
  | nil => rfl
  | cons a as ih =>
    have ha : ¬ (('`' : Char) == a) = true := by
      simp only [beq_iff_eq]
      intro hx
      exact h (List.mem_cons.mpr (Or.inl hx))
    simp only [findSub, backtickFence, List.isPrefixOf, Bool.and_eq_true]
    rw [if_neg (by simp [ha])]
    have := ih (fun hx => h (List.mem_cons.mpr (Or.inr hx)))
    simp only [backtickFence] at this
    rw [this]
    rfl

theorem findSub_close {l : List Char} (r : List Char) (h : '`' ∉ l) :
    findSub (l ++ '\n' :: '`' :: '`' :: '`' :: r) backtickFence = some (l.length + 1) := by
  induction l with
  | nil =>
    simp [findSub, backtickFence, List.isPrefixOf]
  | cons a as ih =>
    have ha : ¬ (('`' : Char) == a) = true := by
      simp only [beq_iff_eq]
      intro hx
      exact h (List.mem_cons.mpr (Or.inl hx))
    simp only [List.cons_append, findSub, backtickFence, List.isPrefixOf, Bool.and_eq_true,
      List.append_eq]
    rw [if_neg (by simp [ha])]
    have := ih (fun hx => h (List.mem_cons.mpr (Or.inr hx)))
    simp only [backtickFence] at this
    rw [this]
    simp

theorem extractFenced_wrap (v : Json) (hbt : '`' ∉ encJson v) :
    extractFenced (fenceWrap (encJson v)) = some (encJson v ++ ['\n']) := by
  obtain ⟨c, cs, hcs⟩ : ∃ c cs, encJson v = c :: cs := by
    cases h : encJson v with
    | nil => exact absurd h (encJson_ne_nil _)
    | cons c cs => exact ⟨c, cs, rfl⟩
  have hh := encJson_head v c (by rw [hcs]; rfl)
  have h0 : findSub (fenceWrap (encJson v)) backtickFence = some 0 := by
    simp [fenceWrap, findSub, backtickFence, List.isPrefixOf]
  have hskip : skipWs ('\n' :: (encJson v ++ ['\n', '`', '`', '`']))
      = encJson v ++ ['\n', '`', '`', '`'] := by
    rw [show skipWs ('\n' :: (encJson v ++ ['\n', '`', '`', '`']))
        = skipWs (encJson v ++ ['\n', '`', '`', '`']) from by simp [skipWs, isWsChar]]
    apply skipWs_eq_self
    intro x hx
    rw [hcs] at hx
    simp at hx
    subst hx
    exact hh.1
  have hclose : findSub (encJson v ++ '\n' :: '`' :: '`' :: '`' :: [])
      backtickFence = some ((encJson v).length + 1) := findSub_close [] hbt
  simp only [extractFenced, h0]
  rw [show (fenceWrap (encJson v)).drop 3
      = 'j' :: 's' :: 'o' :: 'n' :: '\n' :: (encJson v ++ ['\n', '`', '`', '`']) from by
    simp [fenceWrap]]
  rw [show dropLit ['j', 's', 'o', 'n']
      ('j' :: 's' :: 'o' :: 'n' :: '\n' :: (encJson v ++ ['\n', '`', '`', '`']))
      = some ('\n' :: (encJson v ++ ['\n', '`', '`', '`'])) from by simp [dropLit]]
  rw [hskip]
  rw [show encJson v ++ ['\n', '`', '`', '`'] = encJson v ++ '\n' :: '`' :: '`' :: '`' :: []
    from rfl]
  rw [hclose]
  have htake : List.take ((encJson v).length + 1) (encJson v ++ '\n' :: '`' :: '`' :: '`' :: [])
      = encJson v ++ ['\n'] := by
    rw [show encJson v ++ '\n' :: '`' :: '`' :: '`' :: []
        = (encJson v ++ ['\n']) ++ ['`', '`', '`'] from by simp]
    rw [show (encJson v).length + 1 = (encJson v ++ ['\n']).length from by simp]
    exact List.take_left _ _
  simp [htake]

theorem isValidJSON_backtick (l : List Char) : isValidJSON ('`' :: l) = false := by
  have hd : isDigitChar '`' = false := by decide
  simp [isValidJSON, parseJson, parseVal, skipWs, isWsChar, hd]

theorem trimChars_concat_nl (l : List Char) (hne : l ≠ [])
    (hh : ∀ c, l.head? = some c → isWsChar c = false)
    (hl : ∀ c, l.getLast? = some c → isWsChar c = false) :
    trimChars (l ++ ['\n']) = l := by
  have := trimChars_around [] l ['\n'] hne hh hl
  simp only [List.nil_append] at this
  rw [this]
  simp [skipWs, rtrimChars, isWsChar]

theorem ExtractJSON_bare (v : Json) : ExtractJSON (encJson v) = some (encJson v) := by
  rw [ExtractJSON]
  rw [trimChars_noop (encJson v) (fun c hc => (encJson_head v c hc).1) (encJson_last v)]
  simp [isValidJSON_enc]

theorem ExtractJSON_fenced (v : Json) (hbt : '`' ∉ encJson v) :
    ExtractJSON (fenceWrap (encJson v)) = some (encJson v) := by
  have htrim : trimChars (fenceWrap (encJson v)) = fenceWrap (encJson v) := by
    apply trimChars_noop
    · intro c hc
      simp [fenceWrap] at hc
      subst hc
      decide
    · intro c hc
      rw [show fenceWrap (encJson v)
          = ('`' :: '`' :: '`' :: 'j' :: 's' :: 'o' :: 'n' :: '\n' :: (encJson v ++ ['\n', '`', '`'])) ++ ['`']
          from by simp [fenceWrap]] at hc
      rw [List.getLast?_concat] at hc
      simp at hc
      subst hc
      decide
  have h2 : isValidJSON (fenceWrap (encJson v)) = false := by
    rw [show fenceWrap (encJson v)
        = '`' :: ('`' :: '`' :: 'j' :: 's' :: 'o' :: 'n' :: '\n' :: (encJson v ++ ['\n', '`', '`', '`'])) from rfl]
    exact isValidJSON_backtick _
  have h3 := extractFenced_wrap v hbt
  have h4 : trimChars (encJson v ++ ['\n']) = encJson v :=
    trimChars_concat_nl (encJson v) (encJson_ne_nil v)
      (fun c hc => (encJson_head v c hc).1) (encJson_last v)
  simp [ExtractJSON, htrim, h2, h3, h4, isValidJSON_enc]

theorem ExtractJSON_prose_obj (fs : JObj) (p1 p2 : List Char)
    (hp1 : ∀ c ∈ p1, ¬ c = '{' ∧ ¬ c = '[' ∧ ¬ c = '`')
    (hp2 : '`' ∉ p2)
    (hbt : '`' ∉ encJson (.obj fs))
    (hnv : isValidJSON (trimChars (p1 ++ (encJson (.obj fs) ++ p2))) = false) :
    ExtractJSON (p1 ++ (encJson (.obj fs) ++ p2)) = some (encJson (.obj fs)) := by
  set m := encJson (.obj fs) with hm
  have hmne : m ≠ [] := encJson_ne_nil _
  have htrim : trimChars (p1 ++ (m ++ p2)) = skipWs p1 ++ (m ++ rtrimChars p2) :=
    trimChars_around p1 m p2 hmne (fun c hc => (encJson_head _ c hc).1) (encJson_last _)
  set t := skipWs p1 ++ (m ++ rtrimChars p2) with ht
  have hnv' : isValidJSON t = false := by rw [← htrim]; exact hnv
  have hnb : '`' ∉ t := by
    intro hcmem
    rw [ht] at hcmem
    rcases List.mem_append.1 hcmem with h | h
    · exact (hp1 _ (skipWs_sublist p1 _ h)).2.2 rfl
    · rcases List.mem_append.1 h with h | h
      · exact hbt h
      · exact hp2 (rtrim_subset p2 _ h)
  have hfen : extractFenced t = none := by
    simp [extractFenced, findSub_of_no_backtick hnb]
  have hmhead : m = '{' :: (encObj fs ++ ['}']) := by rw [hm]; simp [encJson]
  have hp1' : '{' ∉ skipWs p1 := fun h => (hp1 _ (skipWs_sublist p1 _ h)).1 rfl
  have hp1'' : '[' ∉ skipWs p1 := fun h => (hp1 _ (skipWs_sublist p1 _ h)).2.1 rfl
  have hobj : idxOf t '{' = some (skipWs p1).length := by
    rw [ht, idxOf_append_left _ hp1', hmhead]
    rw [show ('{' :: (encObj fs ++ ['}'])) ++ rtrimChars p2
        = '{' :: ((encObj fs ++ ['}']) ++ rtrimChars p2) from by simp]
    rw [idxOf_cons_self]
    simp
  have harr : idxOf t '[' = (idxOf ((encObj fs ++ ['}']) ++ rtrimChars p2) '[').map
      (· + 1 + (skipWs p1).length) := by
    rw [ht, idxOf_append_left _ hp1'', hmhead]
    rw [show ('{' :: (encObj fs ++ ['}'])) ++ rtrimChars p2
        = '{' :: ((encObj fs ++ ['}']) ++ rtrimChars p2) from by simp]
    rw [idxOf_cons_ne _ (by decide)]
    cases idxOf ((encObj fs ++ ['}']) ++ rtrimChars p2) '[' <;> simp
  have hdrop : t.drop (skipWs p1).length = m ++ rtrimChars p2 := by
    rw [ht]; exact List.drop_left _ _
  have hfind : findMatchingBrace (m ++ rtrimChars p2) '{' '}' = some (m.length - 1) := by
    rw [hm]; exact findMB_top_obj fs _
  have hmlen : 1 ≤ m.length := by
    cases hmm : m with
    | nil => exact absurd hmm hmne
    | cons a b => simp
  have htake : (m ++ rtrimChars p2).take (m.length - 1 + 1) = m := by
    rw [show m.length - 1 + 1 = m.length from by omega]
    exact List.take_left _ _
  have hval : isValidJSON m = true := by rw [hm]; exact isValidJSON_enc _
  rw [ExtractJSON]
  rw [htrim]
  rw [hnv']
  simp only [Bool.false_eq_true, if_false, hfen]
  rw [hobj, harr]
  cases hcase : idxOf ((encObj fs ++ ['}']) ++ rtrimChars p2) '[' with
  | none =>
    simp only [Option.map_none']
    simp [hdrop, hfind, htake, hval]
  | some k =>
    simp only [Option.map_some']
    rw [if_pos (by omega)]
    simp [hdrop, hfind, htake, hval]

theorem ExtractJSON_prose_arr (xs : JArr) (p1 p2 : List Char)
    (hp1 : ∀ c ∈ p1, ¬ c = '{' ∧ ¬ c = '[' ∧ ¬ c = '`')
    (hp2 : '`' ∉ p2)
    (hbt : '`' ∉ encJson (.arr xs))
    (hnv : isValidJSON (trimChars (p1 ++ (encJson (.arr xs) ++ p2))) = false) :
    ExtractJSON (p1 ++ (encJson (.arr xs) ++ p2)) = some (encJson (.arr xs)) := by
  set m := encJson (.arr xs) with hm
  have hmne : m ≠ [] := encJson_ne_nil _
  have htrim : trimChars (p1 ++ (m ++ p2)) = skipWs p1 ++ (m ++ rtrimChars p2) :=
    trimChars_around p1 m p2 hmne (fun c hc => (encJson_head _ c hc).1) (encJson_last _)
  set t := skipWs p1 ++ (m ++ rtrimChars p2) with ht
  have hnv' : isValidJSON t = false := by rw [← htrim]; exact hnv
  have hnb : '`' ∉ t := by
    intro hcmem
    rw [ht] at hcmem
    rcases List.mem_append.1 hcmem with h | h
    · exact (hp1 _ (skipWs_sublist p1 _ h)).2.2 rfl
    · rcases List.mem_append.1 h with h | h
      · exact hbt h
      · exact hp2 (rtrim_subset p2 _ h)
  have hfen : extractFenced t = none := by
    simp [extractFenced, findSub_of_no_backtick hnb]
  have hmhead : m = '[' :: (encArr xs ++ [']']) := by rw [hm]; simp [encJson]
  have hp1' : '{' ∉ skipWs p1 := fun h => (hp1 _ (skipWs_sublist p1 _ h)).1 rfl
  have hp1'' : '[' ∉ skipWs p1 := fun h => (hp1 _ (skipWs_sublist p1 _ h)).2.1 rfl
  have harr : idxOf t '[' = some (skipWs p1).length := by
    rw [ht, idxOf_append_left _ hp1'', hmhead]
    rw [show ('[' :: (encArr xs ++ [']'])) ++ rtrimChars p2
        = '[' :: ((encArr xs ++ [']']) ++ rtrimChars p2) from by simp]
    rw [idxOf_cons_self]
    simp
  have hobj : idxOf t '{' = (idxOf ((encArr xs ++ [']']) ++ rtrimChars p2) '{').map
      (· + 1 + (skipWs p1).length) := by
    rw [ht, idxOf_append_left _ hp1', hmhead]
    rw [show ('[' :: (encArr xs ++ [']'])) ++ rtrimChars p2
        = '[' :: ((encArr xs ++ [']']) ++ rtrimChars p2) from by simp]
    rw [idxOf_cons_ne _ (by decide)]
    cases idxOf ((encArr xs ++ [']']) ++ rtrimChars p2) '{' <;> simp
  have hdrop : t.drop (skipWs p1).length = m ++ rtrimChars p2 := by
    rw [ht]; exact List.drop_left _ _
  have hfind : findMatchingBrace (m ++ rtrimChars p2) '[' ']' = some (m.length - 1) := by
    rw [hm]; exact findMB_top_arr xs _
  have hmlen : 1 ≤ m.length := by
    cases hmm : m with
    | nil => exact absurd hmm hmne
    | cons a b => simp
  have htake : (m ++ rtrimChars p2).take (m.length - 1 + 1) = m := by
    rw [show m.length - 1 + 1 = m.length from by omega]
    exact List.take_left _ _
  have hval : isValidJSON m = true := by rw [hm]; exact isValidJSON_enc _
  rw [ExtractJSON]
  rw [htrim]
  rw [hnv']
  simp only [Bool.false_eq_true, if_false, hfen]
  rw [hobj, harr]
  cases hcase : idxOf ((encArr xs ++ [']']) ++ rtrimChars p2) '{' with
  | none =>
    simp only [Option.map_none']
    simp [hdrop, hfind, htake, hval]
  | some k =>
    simp only [Option.map_some']
    rw [if_neg (by omega)]
    simp [hdrop, hfind, htake, hval]

/-- C8: Prompted-mode extraction round-trip, as forced by the code.  The
bare-text case holds for every value; the fenced case needs the encoded value
to contain no backtick run that would close the fence early; the prose case
holds for object- or array-rooted values whose encoding likewise contains no
backtick (a backtick run inside the value can form a spurious fence that the
fenced step captures first), when the surrounding prose brings no brace,
bracket or backtick of its own and the combined text is not itself valid
JSON; and a text with no JSON in it is an extraction failure.  The extractor
itself tries the trimmed text, the fenced block, and the balanced span in
that order by definition of `ExtractJSON`. -/
theorem C8_prompted_extraction_roundTrip :
    (∀ (sval : Json → Bool) (v : Json), sval v = true →
      ∃ out, ExtractJSON (encJson v) = some out
        ∧ ∃ w, parseJson out = some w ∧ sval w = true)
  ∧ (∀ (sval : Json → Bool) (v : Json), sval v = true → '`' ∉ encJson v →
      ∃ out, ExtractJSON (fenceWrap (encJson v)) = some out
        ∧ ∃ w, parseJson out = some w ∧ sval w = true)
  ∧ (∀ (sval : Json → Bool) (v : Json) (p1 p2 : List Char), sval v = true →
      ((∃ fs, v = .obj fs) ∨ (∃ xs, v = .arr xs)) →
      (∀ c ∈ p1, ¬ c = '{' ∧ ¬ c = '[' ∧ ¬ c = '`') → '`' ∉ p2 → '`' ∉ encJson v →
      isValidJSON (trimChars (p1 ++ (encJson v ++ p2))) = false →
      ∃ out, ExtractJSON (p1 ++ (encJson v ++ p2)) = some out
        ∧ ∃ w, parseJson out = some w ∧ sval w = true)
  ∧ ExtractJSON (String.data ("This is just plain text")) = none := by
  refine ⟨?_, ?_, ?_, by rfl⟩
  · intro sval v hs
    exact ⟨encJson v, ExtractJSON_bare v, v, parseJson_enc v, hs⟩
  · intro sval v hs hbt
    exact ⟨encJson v, ExtractJSON_fenced v hbt, v, parseJson_enc v, hs⟩
  · intro sval v p1 p2 hs hcont hp1 hp2 hbt hnv
    rcases hcont with ⟨fs, rfl⟩ | ⟨xs, rfl⟩
    · exact ⟨encJson (.obj fs), ExtractJSON_prose_obj fs p1 p2 hp1 hp2 hbt hnv, _,
        parseJson_enc _, hs⟩
    · exact ⟨encJson (.arr xs), ExtractJSON_prose_arr xs p1 p2 hp1 hp2 hbt hnv, _,
        parseJson_enc _, hs⟩

/-- C8 counterexample: the claim quantifies over arbitrary surrounding prose,
but prose containing a brace breaks extraction.  Here the value
`{"a":1}` is valid JSON (second conjunct), yet surrounded by the prose
opening brace the extractor finds no JSON at all. -/
theorem C8_prompted_extraction_counterexample :
    ExtractJSON (String.data ("\x7b \x7b\"a\":1\x7d")) = none
  ∧ parseJson (String.data ("\x7b\"a\":1\x7d"))
      = some (Json.obj (JObj.cons ("a") (Json.num 1) JObj.nil)) := by
  constructor
  · rfl
  · rfl

/-- C8 witness: the round-trip theorem applied at a concrete value, schema and
prose. -/
theorem C8_prompted_extraction_witness :
    (∃ out, ExtractJSON (encJson vC8) = some out
      ∧ ∃ w, parseJson out = some w ∧ (fun x => jsonBeq x vC8) w = true)
  ∧ (∃ out, ExtractJSON (fenceWrap (encJson vC8)) = some out
      ∧ ∃ w, parseJson out = some w ∧ (fun x => jsonBeq x vC8) w = true)
  ∧ (∃ out, ExtractJSON (String.data ("Result: ") ++ (encJson vC8 ++ String.data (" ok"))) = some out
      ∧ ∃ w, parseJson out = some w ∧ (fun x => jsonBeq x vC8) w = true) := by
  refine ⟨C8_prompted_extraction_roundTrip.1 _ vC8 (by rfl),
    C8_prompted_extraction_roundTrip.2.1 _ vC8 (by rfl) (by decide),
    C8_prompted_extraction_roundTrip.2.2.1 _ vC8 (String.data ("Result: "))
      (String.data (" ok")) (by rfl) (Or.inl ⟨_, rfl⟩) (by decide) (by decide) (by decide)
      (by rfl)⟩

theorem finishValidation_snd (schema : Schema) (msg : Message) (content : String) :
    (finishValidation schema msg content).2 = msg := by
  unfold finishValidation
  split
  · rfl
  · split
    · split <;> rfl
    · rfl

theorem toolCalls_singleton {l : List ToolCall} {a : ToolCall}
    (hmem : a ∈ l) (hlen : ¬ 1 < l.length) : l = [a] := by
  match l, hmem with
  | [x], hm =>
    simp at hm
    rw [hm]
  | x :: y :: rest, _ => simp at hlen

/-- C6 (amended): in Tool mode, a response that calls the hidden output tool
together with at least one other tool call always yields the misuse
condition; its payload lists the name of every non-output tool call in
order, one entry per call, the message is left unchanged, and extraction
never succeeds. -/
theorem C6_tool_mode_exclusivity (schema : Schema) (rf : ResponseFormat) (msg : Message)
    (tc0 : ToolCall) (hmode : rf.mode = ResponseFormatModeTool)
    (hschema : rf.schema = some schema)
    (hmem : tc0 ∈ msg.toolCalls) (hname : tc0.function.name = OutputToolName)
    (hlen : 1 < msg.toolCalls.length) :
    ExtractStructuredContent rf msg =
      (Except.error (ExtractError.outputToolMisuse
        ((msg.toolCalls.filter (fun tc => !(tc.function.name == OutputToolName))).map
          (fun tc => tc.function.name))), msg) := by
  have hfind : (msg.toolCalls.find? (fun tc => tc.function.name == OutputToolName)).isSome := by
    rw [List.find?_isSome]
    exact ⟨tc0, hmem, by simp [hname]⟩
  rw [ExtractStructuredContent, hschema]
  simp only []
  rw [if_neg (by rw [hmode]; decide)]
  rw [if_pos hmode]
  cases hf : msg.toolCalls.find? (fun tc => tc.function.name == OutputToolName) with
  | none => rw [hf] at hfind; simp at hfind
  | some oc => simp [hlen]

/-- C6 counterexample: with the output tool plus the same other tool called
twice, the misuse payload lists that tool once per call, not once. -/
theorem C6_tool_mode_exclusivity_counterexample :
    ExtractStructuredContent
      { mode := ResponseFormatModeTool, name := "", description := "",
        schema := some (fun _ => true) }
      { role := RoleAssistant, contentPart := [],
        toolCalls :=
          [⟨"c1", ⟨OutputToolName, JObj.nil⟩⟩,
           ⟨"c2", ⟨"get_weather", JObj.nil⟩⟩,
           ⟨"c3", ⟨"get_weather", JObj.nil⟩⟩],
        toolCallID := none }
      = (Except.error (ExtractError.outputToolMisuse (["get_weather", "get_weather"])),
         { role := RoleAssistant, contentPart := [],
           toolCalls :=
             [⟨"c1", ⟨OutputToolName, JObj.nil⟩⟩,
              ⟨"c2", ⟨"get_weather", JObj.nil⟩⟩,
              ⟨"c3", ⟨"get_weather", JObj.nil⟩⟩],
           toolCallID := none })
  ∧ (["get_weather", "get_weather"] : List String) ≠ (["get_weather"] : List String) := by
  constructor
  · rfl
  · decide

/-- C6 witness: the amended theorem applied at the concrete three-call
message. -/
theorem C6_tool_mode_exclusivity_witness :
    ExtractStructuredContent
      { mode := ResponseFormatModeTool, name := "", description := "",
        schema := some (fun _ => true) }
      { role := RoleAssistant, contentPart := [],
        toolCalls :=
          [⟨"c1", ⟨OutputToolName, JObj.nil⟩⟩, ⟨"c2", ⟨"tool_b", JObj.nil⟩⟩],
        toolCallID := none }
      = (Except.error (ExtractError.outputToolMisuse (["tool_b"])),
         { role := RoleAssistant, contentPart := [],
           toolCalls :=
             [⟨"c1", ⟨OutputToolName, JObj.nil⟩⟩, ⟨"c2", ⟨"tool_b", JObj.nil⟩⟩],
           toolCallID := none }) := by
  have h := C6_tool_mode_exclusivity (fun _ => true)
    { mode := ResponseFormatModeTool, name := "", description := "",
      schema := some (fun _ => true) }
    { role := RoleAssistant, contentPart := [],
      toolCalls :=
        [⟨"c1", ⟨OutputToolName, JObj.nil⟩⟩, ⟨"c2", ⟨"tool_b", JObj.nil⟩⟩],
      toolCallID := none }
    ⟨"c1", ⟨OutputToolName, JObj.nil⟩⟩ rfl rfl (by simp) rfl (by simp)
  simpa using h

/-- C7: in Tool mode, when the hidden output tool is the only tool call, the
extraction serializes its arguments, strips the call and appends the
serialization as one text content part, leaving role, pre-existing content
parts and the tool-call id untouched (first conjunct); and this is the only
situation, in any mode, in which extraction modifies the message (second
conjunct). -/
theorem C7_tool_mode_transform :
    (∀ (schema : Schema) (rf : ResponseFormat) (msg : Message) (oc : ToolCall),
      rf.mode = ResponseFormatModeTool → rf.schema = some schema →
      msg.toolCalls = [oc] → oc.function.name = OutputToolName →
      (ExtractStructuredContent rf msg).2 =
        { msg with
          toolCalls := ([] : List ToolCall)
          contentPart := msg.contentPart
            ++ [ContentPart.text ⟨encJson (.obj oc.function.arguments)⟩] })
  ∧ (∀ (rf : ResponseFormat) (msg : Message),
      (ExtractStructuredContent rf msg).2 ≠ msg →
      rf.mode = ResponseFormatModeTool ∧ rf.schema ≠ none
        ∧ ∃ oc, msg.toolCalls = [oc] ∧ oc.function.name = OutputToolName) := by
  constructor
  · intro schema rf msg oc hmode hschema hcalls hname
    rw [ExtractStructuredContent, hschema]
    simp only []
    rw [if_neg (by rw [hmode]; decide)]
    rw [if_pos hmode]
    rw [hcalls]
    rw [show List.find? (fun tc => tc.function.name == OutputToolName) [oc] = some oc from by
      simp [List.find?, hname]]
    simp only [List.length_cons, List.length_nil]
    rw [if_neg (by omega)]
    rw [finishValidation_snd]
  · intro rf msg hne
    rw [ExtractStructuredContent] at hne
    cases hschema : rf.schema with
    | none => rw [hschema] at hne; simp at hne
    | some schema =>
      rw [hschema] at hne
      simp only [] at hne
      by_cases hnat : rf.mode = ResponseFormatModeNative
      · rw [if_pos hnat] at hne
        rw [finishValidation_snd] at hne
        simp at hne
      · rw [if_neg hnat] at hne
        by_cases htool : rf.mode = ResponseFormatModeTool
        · rw [if_pos htool] at hne
          refine ⟨htool, by simp, ?_⟩
          cases hf : msg.toolCalls.find? (fun tc => tc.function.name == OutputToolName) with
          | none =>
            rw [hf] at hne
            simp only [] at hne
            by_cases hzero : msg.toolCalls.length = 0
            · rw [if_pos hzero] at hne; simp at hne
            · rw [if_neg hzero] at hne
              rw [finishValidation_snd] at hne
              simp at hne
          | some oc =>
            rw [hf] at hne
            simp only [] at hne
            by_cases hgt : msg.toolCalls.length > 1
            · rw [if_pos hgt] at hne; simp at hne
            · refine ⟨oc, toolCalls_singleton (List.mem_of_find?_eq_some hf) hgt, ?_⟩
              have := List.find?_some hf
              simpa using this
        · rw [if_neg htool] at hne
          by_cases hpr : rf.mode = ResponseFormatModePrompted
          · rw [if_pos hpr] at hne
            cases he : ExtractJSON (TextContent msg).data with
            | none => rw [he] at hne; simp at hne
            | some out =>
              rw [he] at hne
              rw [finishValidation_snd] at hne
              simp at hne
          · rw [if_neg hpr] at hne
            simp at hne

/-- C7 witness: the transformation theorem applied at a concrete message. -/
theorem C7_tool_mode_transform_witness :
    (ExtractStructuredContent
      { mode := ResponseFormatModeTool, name := "", description := "",
        schema := some (fun _ => true) }
      { role := RoleAssistant, contentPart := [ContentPart.text ("Let me check.")],
        toolCalls := [⟨"c9", ⟨OutputToolName, JObj.cons ("city") (Json.str ("NYC")) JObj.nil⟩⟩],
        toolCallID := none }).2 =
      { role := RoleAssistant,
        contentPart := [ContentPart.text ("Let me check."),
          ContentPart.text ("\x7b\"city\":\"NYC\"\x7d")],
        toolCalls := [], toolCallID := none } := by
  have h := C7_tool_mode_transform.1 (fun _ => true)
    { mode := ResponseFormatModeTool, name := "", description := "",
      schema := some (fun _ => true) }
    { role := RoleAssistant, contentPart := [ContentPart.text ("Let me check.")],
      toolCalls := [⟨"c9", ⟨OutputToolName, JObj.cons ("city") (Json.str ("NYC")) JObj.nil⟩⟩],
      toolCallID := none }
    ⟨"c9", ⟨OutputToolName, JObj.cons ("city") (Json.str ("NYC")) JObj.nil⟩⟩
    rfl rfl rfl rfl
  rw [h]
  rfl

theorem string_append_empty (s : String) : s ++ "" = s := by
  cases s with
  | mk l => exact congrArg String.mk (List.append_nil l)

theorem parseJson_nil : parseJson [] = none := rfl

theorem string_empty_append (s : String) : "" ++ s = s := rfl

theorem ite_set_arg (a : String) : (if a ≠ "" then a else "") = a := by
  by_cases h : a = "" <;> simp [h]

theorem ite_append_arg (t a : String) : (if a ≠ "" then t ++ a else t) = t ++ a := by
  by_cases h : a = ""
  · subst h
    simp [string_append_empty]
  · simp [h]

/-- C9 (amended): feeding the three deltas reconstructs role, text
`"Hello"` and a single tool call whose arguments are the JSON-object decode
of `A ++ B`, for every split of the argument text whose concatenation trims
and decodes to a JSON object (first conjunct); tool calls delivered out of
index order are emitted sorted by ascending index (second conjunct). -/
theorem C9_streaming_reassembly :
    (∀ (r A B id nm : String) (fs : JObj),
      r ≠ "" →
      parseJson (trimChars (A ++ B).data) = some (Json.obj fs) →
      (((NewMessageAccumulator.Update
            { role := r, content := "Hel", toolCalls := [], refusal := "" }).Update
          { role := "", content := "lo",
            toolCalls := [{ index := 0, id := id, functionName := nm, arguments := A }],
            refusal := "" }).Update
          { role := "", content := "",
            toolCalls := [{ index := 0, id := "", functionName := "", arguments := B }],
            refusal := "" }).Message
        = Except.ok { role := r, contentPart := [ContentPart.text ("Hello")],
                      toolCalls := [⟨id, ⟨nm, fs⟩⟩], toolCallID := none })
  ∧ (((NewMessageAccumulator.Update
        { role := "assistant", content := "x",
          toolCalls := [{ index := 1, id := "b", functionName := "tb", arguments := "" }],
          refusal := "" }).Update
        { role := "", content := "",
          toolCalls := [{ index := 0, id := "a", functionName := "ta", arguments := "" }],
          refusal := "" }).Message
      = Except.ok { role := "assistant", contentPart := [ContentPart.text ("x")],
                    toolCalls := [⟨"a", ⟨"ta", JObj.nil⟩⟩, ⟨"b", ⟨"tb", JObj.nil⟩⟩],
                    toolCallID := none }) := by
  constructor
  · intro r A B id nm fs hr hparse
    have h1 : NewMessageAccumulator.Update
        { role := r, content := "Hel", toolCalls := [], refusal := "" }
        = { role := r, content := "Hel", refusal := "", toolCalls := [] } := by
      simp [MessageAccumulator.Update, NewMessageAccumulator, hr, string_empty_append]
    rw [h1]
    have h2 : MessageAccumulator.Update
        { role := r, content := "Hel", refusal := "", toolCalls := [] }
        { role := "", content := "lo",
          toolCalls := [{ index := 0, id := id, functionName := nm, arguments := A }],
          refusal := "" }
        = { role := r, content := "Hello", refusal := "",
            toolCalls := [(0, { id := id, name := nm, arguments := A })] } := by
      simp [MessageAccumulator.Update, applyToolCallDelta, getTC, setTC,
        ite_set_arg, ite_append_arg, string_empty_append]
      refine ⟨?_, ?_, ?_⟩ <;> (intro h; exact h.symm)
    rw [h2]
    have h3 : MessageAccumulator.Update
        { role := r, content := "Hello", refusal := "",
          toolCalls := [(0, { id := id, name := nm, arguments := A })] }
        { role := "", content := "",
          toolCalls := [{ index := 0, id := "", functionName := "", arguments := B }],
          refusal := "" }
        = { role := r, content := "Hello", refusal := "",
            toolCalls := [(0, { id := id, name := nm, arguments := A ++ B })] } := by
      simp [MessageAccumulator.Update, applyToolCallDelta, getTC, setTC, ite_append_arg]
      intro h
      subst h
      exact (string_append_empty A).symm
    rw [h3]
    have hne : trimString (A ++ B) ≠ "" := by
      intro hcon
      have hdata : (trimString (A ++ B)).data = [] := by rw [hcon]
      have hd2 : trimChars (A ++ B).data = [] := hdata
      rw [hd2, parseJson_nil] at hparse
      exact Option.noConfusion hparse
    have hdata : (trimString (A ++ B)).data = trimChars (A ++ B).data := rfl
    have hparse2 : parseJson (trimChars (A.data ++ B.data)) = some (Json.obj fs) := hparse
    simp [MessageAccumulator.Message, buildToolCalls, getTC, sortInts, insertInt,
      baseMessage, hne, hdata, hparse2]
    rfl
  · rfl

/-- C9 counterexample: `A ++ B = "[1,2]"` is valid JSON, but not a JSON
object, so finalization fails instead of producing the tool call the claim
promises. -/
theorem C9_streaming_reassembly_counterexample :
    parseJson (trimChars (("[1," ++ "2]" : String)).data)
      = some (Json.arr (JArr.cons (Json.num 1) (JArr.cons (Json.num 2) JArr.nil)))
  ∧ (((NewMessageAccumulator.Update
        { role := "assistant", content := "Hel", toolCalls := [], refusal := "" }).Update
      { role := "", content := "lo",
        toolCalls := [{ index := 0, id := "call_1", functionName := "do", arguments := "[1," }],
        refusal := "" }).Update
      { role := "", content := "",
        toolCalls := [{ index := 0, id := "", functionName := "", arguments := "2]" }],
        refusal := "" }).Message
    = Except.error ("parse tool call arguments: cannot unmarshal into map") := by
  constructor
  · rfl
  · rfl

/-- C9 witness: the amended reassembly theorem at concrete fragments. -/
theorem C9_streaming_reassembly_witness :
    (((NewMessageAccumulator.Update
          { role := "assistant", content := "Hel", toolCalls := [], refusal := "" }).Update
        { role := "", content := "lo",
          toolCalls := [{ index := 0, id := "call_1", functionName := "do",
                          arguments := "\x7b\"a\":" }],
          refusal := "" }).Update
        { role := "", content := "",
          toolCalls := [{ index := 0, id := "", functionName := "", arguments := "1\x7d" }],
          refusal := "" }).Message
      = Except.ok { role := "assistant", contentPart := [ContentPart.text ("Hello")],
                    toolCalls := [⟨"call_1", ⟨"do", JObj.cons ("a") (Json.num 1) JObj.nil⟩⟩],
                    toolCallID := none } :=
  C9_streaming_reassembly.1 "assistant" "\x7b\"a\":" "1\x7d" "call_1" "do"
    (JObj.cons ("a") (Json.num 1) JObj.nil) (by decide) (by rfl)

theorem getAcc_setAcc (m : List (Int × SMessageAccumulator)) (k j : Int)
    (v : SMessageAccumulator) :
    getAcc (setAcc m k v) j = if j = k then some v else getAcc m j := by
  induction m with
  | nil =>
    rcases eq_or_ne j k with h | h <;> simp [setAcc, getAcc, h]
    intro h2
    exact absurd h2.symm h
  | cons p rest ih =>
    obtain ⟨i, a⟩ := p
    rcases eq_or_ne i k with hik | hik
    · subst hik
      rcases eq_or_ne j i with hji | hji <;>
        simp [setAcc, getAcc, hji]
      simp [Ne.symm hji]
    · rcases eq_or_ne i j with hij | hij
      · subst hij
        simp [setAcc, getAcc, hik, Ne.symm hik]
      · simp [setAcc, getAcc, hik, hij, ih]

theorem getFin_setFin (m : List (Int × String)) (k j : Int) (v : String) :
    getFin (setFin m k v) j = if j = k then v else getFin m j := by
  induction m with
  | nil =>
    rcases eq_or_ne j k with h | h <;> simp [setFin, getFin, h]
    intro h2
    exact absurd h2.symm h
  | cons p rest ih =>
    obtain ⟨i, a⟩ := p
    rcases eq_or_ne i k with hik | hik
    · subst hik
      rcases eq_or_ne j i with hji | hji <;>
        simp [setFin, getFin, hji]
      simp [Ne.symm hji]
    · rcases eq_or_ne i j with hij | hij
      · subst hij
        simp [setFin, getFin, hik, Ne.symm hik]
      · simp [setFin, getFin, hik, hij, ih]

theorem processChoice_finalUsage (st : swhState) (c : StreamChoice) :
    (processChoice st c).finalUsage = st.finalUsage := by
  rw [processChoice]
  cases hg : getAcc st.accumulators c.index <;>
    by_cases hf : c.finishReason = "" <;>
    simp [registerIdx, hg, hf]

theorem foldl_processChoice_finalUsage (cs : List StreamChoice) (st : swhState) :
    (cs.foldl processChoice st).finalUsage = st.finalUsage := by
  induction cs generalizing st with
  | nil => rfl
  | cons c rest ih => rw [List.foldl_cons, ih, processChoice_finalUsage]

theorem processChoice_usage_irrel (st : swhState) (c : StreamChoice) (u : Option Usage) :
    processChoice { st with finalUsage := u } c
      = { processChoice st c with finalUsage := u } := by
  rw [processChoice, processChoice]
  cases hg : getAcc st.accumulators c.index <;>
    by_cases hf : c.finishReason = "" <;>
    simp [registerIdx, hg, hf]

theorem foldl_processChoice_usage_irrel (cs : List StreamChoice) (st : swhState)
    (u : Option Usage) :
    cs.foldl processChoice { st with finalUsage := u }
      = { cs.foldl processChoice st with finalUsage := u } := by
  induction cs generalizing st with
  | nil => rfl
  | cons c rest ih =>
    rw [List.foldl_cons, processChoice_usage_irrel, List.foldl_cons]
    have := ih (processChoice st c)
    simpa using this

theorem processChunk_eq (st : swhState) (ch : StreamChunk) :
    processChunk st ch
      = { ch.choices.foldl processChoice st with
            finalUsage := match ch.usage with
              | some u => some u
              | none => (ch.choices.foldl processChoice st).finalUsage } := by
  rw [processChunk]
  cases ch.usage <;> simp

theorem foldl_processChunk_core_aux (chunks : List StreamChunk) (st : swhState)
    (u : Option Usage) :
    (chunks.foldl processChunk { st with finalUsage := u }).accumulators
        = ((chunks.flatMap StreamChunk.choices).foldl processChoice st).accumulators
    ∧ (chunks.foldl processChunk { st with finalUsage := u }).order
        = ((chunks.flatMap StreamChunk.choices).foldl processChoice st).order
    ∧ (chunks.foldl processChunk { st with finalUsage := u }).finishReasons
        = ((chunks.flatMap StreamChunk.choices).foldl processChoice st).finishReasons := by
  induction chunks generalizing st u with
  | nil => exact ⟨rfl, rfl, rfl⟩
  | cons ch rest ih =>
    rw [List.foldl_cons, List.flatMap_cons, List.foldl_append]
    have hstep : processChunk { st with finalUsage := u } ch
        = { ch.choices.foldl processChoice st with
              finalUsage := match ch.usage with
                | some w => some w
                | none => u } := by
      rw [processChunk_eq, foldl_processChoice_usage_irrel]
    rw [hstep]
    exact ih (ch.choices.foldl processChoice st) _

theorem foldl_processChunk_core (chunks : List StreamChunk) :
    (chunks.foldl processChunk initState).accumulators
        = ((chunks.flatMap StreamChunk.choices).foldl processChoice initState).accumulators
    ∧ (chunks.foldl processChunk initState).order
        = ((chunks.flatMap StreamChunk.choices).foldl processChoice initState).order
    ∧ (chunks.foldl processChunk initState).finishReasons
        = ((chunks.flatMap StreamChunk.choices).foldl processChoice initState).finishReasons :=
  foldl_processChunk_core_aux chunks initState none

theorem foldl_processChunk_usage (chunks : List StreamChunk) (st : swhState) :
    (chunks.foldl processChunk st).finalUsage
      = match (chunks.filterMap StreamChunk.usage).getLast? with
        | some u => some u
        | none => st.finalUsage := by
  induction chunks using List.reverseRecOn with
  | nil => rfl
  | append_singleton l ch ih =>
    rw [List.foldl_append, List.foldl_cons, List.foldl_nil, processChunk_eq]
    rw [List.filterMap_append]
    cases hu : ch.usage with
    | some u =>
      simp [List.filterMap_cons, hu, List.getLast?_concat]
    | none =>
      simp [List.filterMap_cons, hu, List.append_nil,
        foldl_processChoice_finalUsage, ih]

theorem processChoice_getAcc (st : swhState) (c : StreamChoice) (j : Int) :
    getAcc (processChoice st c).accumulators j
      = if j = c.index then
          some (applyDeltaOpt ((getAcc st.accumulators c.index).getD
            SNewMessageAccumulator) c.delta)
        else getAcc st.accumulators j := by
  rw [processChoice]
  cases hg : getAcc st.accumulators c.index <;>
    by_cases hf : c.finishReason = "" <;>
    simp [registerIdx, hg, hf, getAcc_setAcc] <;>
    by_cases hj : j = c.index <;>
    simp [hj]

theorem processChoice_order (st : swhState) (c : StreamChoice) :
    (processChoice st c).order
      = match getAcc st.accumulators c.index with
        | some _ => st.order
        | none => st.order ++ [c.index] := by
  rw [processChoice]
  cases hg : getAcc st.accumulators c.index <;>
    by_cases hf : c.finishReason = "" <;>
    simp [registerIdx, hg, hf]

theorem processChoice_finishReasons (st : swhState) (c : StreamChoice) :
    (processChoice st c).finishReasons
      = if c.finishReason ≠ "" then setFin st.finishReasons c.index c.finishReason
        else st.finishReasons := by
  rw [processChoice]
  cases hg : getAcc st.accumulators c.index <;>
    by_cases hf : c.finishReason = "" <;>
    simp [registerIdx, hg, hf]

theorem deltasFor_append (idx : Int) (l l2 : List StreamChoice) :
    deltasFor idx (l ++ l2) = deltasFor idx l ++ deltasFor idx l2 := by
  simp [deltasFor, List.filterMap_append]

theorem deltasFor_nil_of_not_any (idx : Int) (l : List StreamChoice)
    (h : l.any (fun c => decide (c.index = idx)) = false) :
    deltasFor idx l = [] := by
  induction l with
  | nil => rfl
  | cons c rest ih =>
    simp only [List.any_cons, Bool.or_eq_false_iff, decide_eq_false_iff_not] at h
    have hstep : deltasFor idx (c :: rest) = deltasFor idx rest := by
      simp [deltasFor, List.filterMap_cons, h.1]
    rw [hstep, ih h.2]

theorem accFormula (cs : List StreamChoice) (j : Int) :
    getAcc ((cs.foldl processChoice initState).accumulators) j
      = if cs.any (fun c => decide (c.index = j)) then
          some ((deltasFor j cs).foldl SMessageAccumulator.Update SNewMessageAccumulator)
        else none := by
  induction cs using List.reverseRecOn with
  | nil => rfl
  | append_singleton l c ih =>
    rw [List.foldl_append, List.foldl_cons, List.foldl_nil, processChoice_getAcc]
    rcases eq_or_ne j c.index with hj | hj
    · subst hj
      rw [if_pos rfl, ih]
      have hany : (l ++ [c]).any (fun x => decide (x.index = c.index)) = true := by
        simp [List.any_append]
      rw [if_pos hany]
      by_cases ha : l.any (fun x => decide (x.index = c.index)) = true
      · rw [if_pos ha, deltasFor_append]
        cases hd : c.delta <;>
          simp [deltasFor, List.filterMap_cons, hd, applyDeltaOpt, List.foldl_append]
      · rw [if_neg ha, deltasFor_append,
          deltasFor_nil_of_not_any c.index l (Bool.eq_false_iff.mpr ha)]
        cases hd : c.delta <;>
          simp [deltasFor, List.filterMap_cons, hd, applyDeltaOpt]
    · rw [if_neg hj, ih]
      have hc : decide (c.index = j) = false := by
        simp [Ne.symm hj]
      have heq : (l ++ [c]).any (fun x => decide (x.index = j))
          = l.any (fun x => decide (x.index = j)) := by
        rw [List.any_append]
        simp [List.any_cons, List.any_nil, hc]
      have hdc : deltasFor j [c] = [] := by
        simp [deltasFor, List.filterMap_cons, Ne.symm hj]
      rw [heq, deltasFor_append, hdc, List.append_nil]

theorem goodState_init : goodState initState := by
  constructor
  · exact List.nodup_nil
  · intro i
    simp [initState, getAcc]

theorem goodState_step (st : swhState) (c : StreamChoice) (h : goodState st) :
    goodState (processChoice st c) := by
  obtain ⟨hnd, hmem⟩ := h
  rw [goodState, processChoice_order]
  cases hg : getAcc st.accumulators c.index with
  | some a =>
    refine ⟨hnd, fun i => ?_⟩
    rw [processChoice_getAcc]
    rcases eq_or_ne i c.index with hi | hi
    · subst hi
      simp [hmem, hg]
    · simp [hi, hmem]
  | none =>
    have hnotin : c.index ∉ st.order := by
      intro hin
      have := (hmem c.index).mp hin
      rw [hg] at this
      simp at this
    refine ⟨?_, fun i => ?_⟩
    · simp [List.nodup_append, hnd, hnotin]
    · rw [processChoice_getAcc]
      rcases eq_or_ne i c.index with hi | hi
      · subst hi
        simp
      · simp [hi, hmem, List.mem_append]

theorem goodState_foldl (cs : List StreamChoice) :
    goodState (cs.foldl processChoice initState) := by
  induction cs using List.reverseRecOn with
  | nil => exact goodState_init
  | append_singleton l c ih =>
    rw [List.foldl_append, List.foldl_cons, List.foldl_nil]
    exact goodState_step _ _ ih

theorem insertInt_eq_orderedInsert (x : Int) (l : List Int) :
    insertInt x l = List.orderedInsert (· ≤ ·) x l := by
  induction l with
  | nil => rfl
  | cons y ys ih => simp [insertInt, List.orderedInsert, ih]

theorem sortInts_eq_insertionSort (l : List Int) :
    sortInts l = List.insertionSort (· ≤ ·) l := by
  induction l with
  | nil => rfl
  | cons x xs ih => simp [sortInts, List.insertionSort, ih, insertInt_eq_orderedInsert]

theorem sortInts_perm (l : List Int) : List.Perm (sortInts l) l := by
  rw [sortInts_eq_insertionSort]
  exact List.perm_insertionSort _ _

theorem sortInts_sorted (l : List Int) : (sortInts l).Sorted (· ≤ ·) := by
  rw [sortInts_eq_insertionSort]
  exact List.sorted_insertionSort _ _

theorem sortInts_sorted_lt (l : List Int) (h : l.Nodup) :
    (sortInts l).Sorted (· < ·) :=
  (sortInts_sorted l).lt_of_le ((sortInts_perm l).nodup_iff.mpr h)

theorem buildChoices_spec (order : List Int) (st : swhState) (cs : List Choice)
    (hsome : ∀ i ∈ order, (getAcc st.accumulators i).isSome)
    (hok : buildChoices st order = Except.ok cs) :
    cs.map Choice.index = order
    ∧ ∀ ch ∈ cs, ∃ a, getAcc st.accumulators ch.index = some a
        ∧ a.Message = Except.ok ch.message
        ∧ ch.finishReason = getFin st.finishReasons ch.index := by
  induction order generalizing cs with
  | nil =>
    rw [buildChoices] at hok
    cases hok
    exact ⟨rfl, by intro ch hch; exact absurd hch (List.not_mem_nil ch)⟩
  | cons idx rest ih =>
    rw [buildChoices] at hok
    cases hg : getAcc st.accumulators idx with
    | none =>
      have := hsome idx (List.mem_cons_self idx rest)
      rw [hg] at this
      exact absurd this (by simp)
    | some acc =>
      rw [hg] at hok
      simp only [] at hok
      cases hm : acc.Message with
      | error e =>
        rw [hm] at hok
        simp only [] at hok
        exact absurd hok (by simp)
      | ok m =>
        rw [hm] at hok
        simp only [] at hok
        cases hrest : buildChoices st rest with
        | error e =>
          rw [hrest] at hok
          exact absurd hok (by simp [Except.map])
        | ok cs2 =>
          rw [hrest] at hok
          have hcs : cs = { index := idx, message := m,
                            finishReason := getFin st.finishReasons idx } :: cs2 := by
            simpa [Except.map] using hok.symm
          subst hcs
          obtain ⟨ih1, ih2⟩ := ih cs2
            (fun i hi => hsome i (List.mem_cons_of_mem idx hi)) hrest
          constructor
          · simp [ih1]
          · intro ch hch
            rcases List.mem_cons.mp hch with hh | hh
            · subst hh
              exact ⟨acc, hg, hm ▸ rfl, rfl⟩
            · exact ih2 ch hh

/-- C10: for every stream, the assembled response has its choices sorted by
strictly ascending index with exactly the indexes that appeared in the
stream; each choice's message is reassembled from that index's deltas alone
(one independent accumulator per index); and the reported usage equals the
usage carried by the last usage-carrying chunk. -/
theorem processChoiceE_ok (st st' : swhState) (c : StreamChoice)
    (h : processChoiceE st c = Except.ok st') : st' = processChoice st c := by
  rw [processChoiceE] at h
  cases hd : c.delta with
  | none =>
    rw [hd] at h
    simp only [Except.ok.injEq] at h
    exact h.symm
  | some d =>
    rw [hd] at h
    simp only [] at h
    cases hg : getAcc (processChoice st c).accumulators c.index with
    | none =>
      rw [hg] at h
      simp only [Except.ok.injEq] at h
      exact h.symm
    | some acc =>
      rw [hg] at h
      simp only [] at h
      cases herr : acc.err with
      | none =>
        rw [herr] at h
        simp only [Except.ok.injEq] at h
        exact h.symm
      | some e =>
        rw [herr] at h
        exact absurd h (by simp)

theorem processChoicesE_ok (cs : List StreamChoice) :
    ∀ (st st' : swhState), processChoicesE st cs = Except.ok st' →
      st' = cs.foldl processChoice st := by
  induction cs with
  | nil =>
    intro st st' h
    rw [processChoicesE] at h
    simp only [Except.ok.injEq] at h
    exact h.symm
  | cons c rest ih =>
    intro st st' h
    rw [processChoicesE] at h
    cases hc : processChoiceE st c with
    | error e =>
      rw [hc] at h
      exact absurd h (by simp)
    | ok st1 =>
      rw [hc] at h
      simp only [] at h
      rw [List.foldl_cons, ← processChoiceE_ok st st1 c hc]
      exact ih st1 st' h

theorem processChunkE_ok (st st' : swhState) (ch : StreamChunk)
    (h : processChunkE st ch = Except.ok st') : st' = processChunk st ch := by
  rw [processChunkE] at h
  cases hc : processChoicesE st ch.choices with
  | error e =>
    rw [hc] at h
    exact absurd h (by simp)
  | ok st1 =>
    rw [hc] at h
    simp only [Except.ok.injEq] at h
    rw [processChunk, ← processChoicesE_ok ch.choices st st1 hc]
    exact h.symm

theorem runChunksE_ok (chunks : List StreamChunk) :
    ∀ (st st' : swhState), runChunksE st chunks = Except.ok st' →
      st' = chunks.foldl processChunk st := by
  induction chunks with
  | nil =>
    intro st st' h
    rw [runChunksE] at h
    simp only [Except.ok.injEq] at h
    exact h.symm
  | cons ch rest ih =>
    intro st st' h
    rw [runChunksE] at h
    cases hc : processChunkE st ch with
    | error e =>
      rw [hc] at h
      exact absurd h (by simp)
    | ok st1 =>
      rw [hc] at h
      simp only [] at h
      rw [List.foldl_cons, ← processChunkE_ok st st1 ch hc]
      exact ih st1 st' h

theorem C10_multi_choice_streaming :
    ∀ (model : String) (chunks : List StreamChunk) (resp : ChatResponse),
      StreamWithHandler model chunks = Except.ok resp →
      List.Pairwise (fun a b => a < b) (resp.choices.map Choice.index)
      ∧ (∀ i : Int, i ∈ resp.choices.map Choice.index ↔
           (chunks.flatMap StreamChunk.choices).any (fun c => decide (c.index = i)) = true)
      ∧ (∀ ch ∈ resp.choices,
           ((deltasFor ch.index (chunks.flatMap StreamChunk.choices)).foldl
             SMessageAccumulator.Update SNewMessageAccumulator).Message
             = Except.ok ch.message)
      ∧ resp.usage = (chunks.filterMap StreamChunk.usage).getLast? := by
  intro model chunks resp h
  rw [StreamWithHandler] at h
  cases hrc : runChunksE initState chunks with
  | error e =>
    rw [hrc] at h
    exact absurd h (by simp)
  | ok st0 =>
    rw [hrc] at h
    simp only [] at h
    have hst : st0 = chunks.foldl processChunk initState :=
      runChunksE_ok chunks initState st0 hrc
    subst hst
    have h' : (buildChoices (chunks.foldl processChunk initState)
        (sortInts (chunks.foldl processChunk initState).order)).map
        (fun cs => ({ id := "", created := 0, model := model, choices := cs,
                      usage := (chunks.foldl processChunk initState).finalUsage } : ChatResponse))
        = Except.ok resp := h
    obtain ⟨hA, hO, hF⟩ := foldl_processChunk_core chunks
    obtain ⟨gnd, gmem⟩ := goodState_foldl (chunks.flatMap StreamChunk.choices)
    cases hb : buildChoices (chunks.foldl processChunk initState)
        (sortInts (chunks.foldl processChunk initState).order) with
    | error e =>
      rw [hb] at h'
      exact absurd h' (by simp [Except.map])
    | ok cs =>
      rw [hb] at h'
      simp only [Except.map, Except.ok.injEq] at h'
      have hnd : (chunks.foldl processChunk initState).order.Nodup := by
        rw [hO]
        exact gnd
      have hsome : ∀ i ∈ sortInts (chunks.foldl processChunk initState).order,
          (getAcc (chunks.foldl processChunk initState).accumulators i).isSome := by
        intro i hi
        have hi2 : i ∈ (chunks.foldl processChunk initState).order :=
          (sortInts_perm _).mem_iff.mp hi
        rw [hO] at hi2
        rw [hA]
        exact (gmem i).mp hi2
      obtain ⟨hmap, hch⟩ := buildChoices_spec _ _ cs hsome hb
      have hchoices : resp.choices = cs := by rw [← h']
      have husage : resp.usage = (chunks.foldl processChunk initState).finalUsage := by
        rw [← h']
      have hiff : ∀ i : Int,
          i ∈ (chunks.foldl processChunk initState).order ↔
            (chunks.flatMap StreamChunk.choices).any (fun c => decide (c.index = i)) = true := by
        intro i
        rw [hO, gmem i, accFormula]
        by_cases ha : (chunks.flatMap StreamChunk.choices).any
            (fun c => decide (c.index = i)) = true
        · simp [ha]
        · simp [Bool.eq_false_iff.mpr ha]
      refine ⟨?_, ?_, ?_, ?_⟩
      · rw [hchoices, hmap]
        exact sortInts_sorted_lt _ hnd
      · intro i
        rw [hchoices, hmap, (sortInts_perm _).mem_iff]
        exact hiff i
      · intro ch hchm
        rw [hchoices] at hchm
        obtain ⟨a, hga, hmsg, _⟩ := hch ch hchm
        rw [hA, accFormula] at hga
        by_cases ha : (chunks.flatMap StreamChunk.choices).any
            (fun c => decide (c.index = ch.index)) = true
        · rw [if_pos ha] at hga
          rw [Option.some.injEq] at hga
          rw [hga]
          exact hmsg
        · rw [if_neg ha] at hga
          exact absurd hga (by simp)
      · rw [husage, foldl_processChunk_usage]
        cases hl : (chunks.filterMap StreamChunk.usage).getLast? <;> rfl

/-- C10 witness: the streaming theorem applied to the concrete two-index
stream. -/
theorem C10_multi_choice_streaming_witness :
    List.Pairwise (fun a b => a < b) (c10resp.choices.map Choice.index)
    ∧ c10resp.usage = (c10chunks.filterMap StreamChunk.usage).getLast? :=
  ⟨(C10_multi_choice_streaming "m" c10chunks c10resp (by rfl)).1,
   (C10_multi_choice_streaming "m" c10chunks c10resp (by rfl)).2.2.2⟩

/-- C1: a non-ModelRetry handler failure is not fatal. Wrapper half: when
input validation and decode pass and the handler fails, the wrapped
Execute returns a nil Go error together with an error-flagged result
carrying the failure text. Loop half: running an agent whose only tool
always fails that way completes normally — the error-flagged result is
appended as the tool-result message, the tool's retry counter stays 0,
and a second dispatch follows the failure (requestCount 2, one Execute
invocation). -/
theorem C1_nonretry_failure_nonfatal :
    (∀ {TIn TOut : Type} (iv : JObj → Option String)
        (um : List Char → Except String TIn)
        (h : RunContext → TIn → Except String TOut)
        (ov : TOut → Option String) (mo : TOut → Except String (List Char))
        (rc : RunContext) (args : JObj) (ti : TIn) (e : String),
      iv args = none →
      um (encJson (Json.obj args)) = Except.ok ti →
      h rc ti = Except.error e →
      validateAndExecute iv um h ov mo rc args = Except.ok (C1errResult e))
    ∧ (∀ e : String,
        (Run (C1P e)).2 = Except.ok
          { output := (),
            messages := [NewUserMessage ("go"), C1assistantMsg,
              NewToolResultMessage "call1" (C1errResult e), C1doneMsg],
            usage := zeroUsage }
        ∧ (Run (C1P e)).1.execTrace = [("t", 0)]
        ∧ getTR (Run (C1P e)).1.toolRetries "t" = 0
        ∧ (Run (C1P e)).1.requestCount = 2) := by
  constructor
  · intro TIn TOut iv um h ov mo rc args ti e hiv hum hh
    rw [validateAndExecute, hiv, hum]
    simp only []
    rw [hh]
    rfl
  · intro e
    refine ⟨?_, ?_, ?_, ?_⟩ <;> rfl

/-- C1 witness: the wrapper half at a concrete failing handler and the
loop half at the failure text "boom". -/
theorem C1_nonretry_failure_nonfatal_witness :
    validateAndExecute (fun _ => none) (fun _ => Except.ok ())
        (fun _ _ => (Except.error ("boom") : Except String Unit))
        (fun _ => none) (fun _ => Except.ok ([] : List Char)) C1rc JObj.nil
      = Except.ok (C1errResult ("boom"))
    ∧ (Run (C1P "boom")).2 = Except.ok
        { output := (),
          messages := [NewUserMessage ("go"), C1assistantMsg,
            NewToolResultMessage "call1" (C1errResult ("boom")), C1doneMsg],
          usage := zeroUsage } :=
  ⟨C1_nonretry_failure_nonfatal.1 (fun _ => none) (fun _ => Except.ok ())
      (fun _ _ => (Except.error ("boom") : Except String Unit))
      (fun _ => none) (fun _ => Except.ok ([] : List Char)) C1rc JObj.nil () ("boom")
      rfl rfl rfl,
   (C1_nonretry_failure_nonfatal.2 ("boom")).1⟩

/-- C2 (amended): a failed schema validation of the untyped arguments,
and a failed decode into the typed input, are surfaced as error-flagged
tool results with a nil Go error — not as a `ModelRetry`; the handler
and the output stages are never invoked (the outcome is independent of
them); and in the run loop such a call consumes no retry budget (the
tool's counter is 0 afterwards, the call counting as a success-path
execution). -/
theorem C2_validation_failures_not_modelRetry :
    (∀ {TIn TOut : Type} (iv : JObj → Option String)
        (um : List Char → Except String TIn)
        (h₁ h₂ : RunContext → TIn → Except String TOut)
        (ov₁ ov₂ : TOut → Option String)
        (mo₁ mo₂ : TOut → Except String (List Char))
        (rc : RunContext) (args : JObj) (e : String),
      iv args = some e →
      validateAndExecute iv um h₁ ov₁ mo₁ rc args
          = Except.ok { contentPart := [ContentPart.text ("Input validation error: " ++ e)],
                        structuredContent := none, isError := true }
        ∧ validateAndExecute iv um h₁ ov₁ mo₁ rc args
          = validateAndExecute iv um h₂ ov₂ mo₂ rc args)
    ∧ (∀ {TIn TOut : Type} (iv : JObj → Option String)
        (um : List Char → Except String TIn)
        (h₁ h₂ : RunContext → TIn → Except String TOut)
        (ov₁ ov₂ : TOut → Option String)
        (mo₁ mo₂ : TOut → Except String (List Char))
        (rc : RunContext) (args : JObj) (e : String),
      iv args = none →
      um (encJson (Json.obj args)) = Except.error e →
      validateAndExecute iv um h₁ ov₁ mo₁ rc args
          = Except.ok { contentPart := [ContentPart.text ("Failed to parse input: " ++ e)],
                        structuredContent := none, isError := true }
        ∧ validateAndExecute iv um h₁ ov₁ mo₁ rc args
          = validateAndExecute iv um h₂ ov₂ mo₂ rc args)
    ∧ (∀ e : String,
        (processCalls (AgentNew [C2tool e] 3 0 false) C2rcfg C2st0 [C2tc]).2 = none
        ∧ (processCalls (AgentNew [C2tool e] 3 0 false) C2rcfg C2st0 [C2tc]).1.toolRetries
            = [("t", 0)]
        ∧ (processCalls (AgentNew [C2tool e] 3 0 false) C2rcfg C2st0 [C2tc]).1.execTrace
            = [("t", 0)]) := by
  refine ⟨?_, ?_, ?_⟩
  · intro TIn TOut iv um h₁ h₂ ov₁ ov₂ mo₁ mo₂ rc args e hiv
    constructor
    · rw [validateAndExecute, hiv]
    · rw [validateAndExecute, hiv, validateAndExecute, hiv]
  · intro TIn TOut iv um h₁ h₂ ov₁ ov₂ mo₁ mo₂ rc args e hiv hum
    constructor
    · rw [validateAndExecute, hiv]
      simp only []
      rw [hum]
    · rw [validateAndExecute, hiv, validateAndExecute, hiv]
      simp only []
      rw [hum]
  · intro e
    exact ⟨rfl, rfl, rfl⟩

/-- C2 counterexample: a concrete failing input validation produces a
nil-error (`Except.ok`) error-flagged result — not a `ModelRetry`
failure — and the loop leaves the tool's retry counter at 0 instead of
consuming budget. -/
theorem C2_validation_failures_counterexample :
    validateAndExecute (fun _ => some ("bad")) (fun _ => Except.ok ())
        (fun _ _ => (Except.ok () : Except String Unit))
        (fun _ => none) (fun _ => Except.ok ([] : List Char)) C2rcW JObj.nil
      = Except.ok { contentPart := [ContentPart.text ("Input validation error: bad")],
                    structuredContent := none, isError := true }
    ∧ validateAndExecute (fun _ => some ("bad")) (fun _ => Except.ok ())
        (fun _ _ => (Except.ok () : Except String Unit))
        (fun _ => none) (fun _ => Except.ok ([] : List Char)) C2rcW JObj.nil
      ≠ Except.error (ExecErr.modelRetry ("bad"))
    ∧ (processCalls (AgentNew [C2tool ("bad")] 3 0 false) C2rcfg C2st0 [C2tc]).1.toolRetries
      = [("t", 0)] := by
  refine ⟨rfl, ?_, rfl⟩
  intro hcon
  rw [validateAndExecute] at hcon
  exact Except.noConfusion hcon

/-- C2 witness: the amended theorem at a concrete failing validator and
a concrete failing decoder. -/
theorem C2_validation_failures_witness :
    validateAndExecute (fun _ => some ("oops")) (fun _ => Except.ok ())
        (fun _ _ => (Except.ok () : Except String Unit))
        (fun _ => none) (fun _ => Except.ok ([] : List Char)) C2rcW JObj.nil
      = Except.ok { contentPart := [ContentPart.text ("Input validation error: oops")],
                    structuredContent := none, isError := true }
    ∧ validateAndExecute (fun _ => none)
        (fun _ => (Except.error ("syntax") : Except String Unit))
        (fun _ _ => (Except.ok () : Except String Unit))
        (fun _ => none) (fun _ => Except.ok ([] : List Char)) C2rcW JObj.nil
      = Except.ok { contentPart := [ContentPart.text ("Failed to parse input: syntax")],
                    structuredContent := none, isError := true }
    ∧ (processCalls (AgentNew [C2tool ("oops")] 3 0 false) C2rcfg C2st0 [C2tc]).2 = none :=
  ⟨(C2_validation_failures_not_modelRetry.1 (fun _ => some ("oops")) (fun _ => Except.ok ())
      (fun _ _ => (Except.ok () : Except String Unit))
      (fun _ _ => (Except.ok () : Except String Unit))
      (fun _ => none) (fun _ => none)
      (fun _ => Except.ok ([] : List Char)) (fun _ => Except.ok ([] : List Char))
      C2rcW JObj.nil ("oops") rfl).1,
   (C2_validation_failures_not_modelRetry.2.1 (fun _ => none)
      (fun _ => (Except.error ("syntax") : Except String Unit))
      (fun _ _ => (Except.ok () : Except String Unit))
      (fun _ _ => (Except.ok () : Except String Unit))
      (fun _ => none) (fun _ => none)
      (fun _ => Except.ok ([] : List Char)) (fun _ => Except.ok ([] : List Char))
      C2rcW JObj.nil ("syntax") rfl rfl).1,
   (C2_validation_failures_not_modelRetry.2.2 ("oops")).1⟩

theorem getTR_setTR (m : List (String × Int)) (k : String) (v : Int) :
    getTR (setTR m k v) k = v := by
  induction m with
  | nil => simp [setTR, getTR]
  | cons p rest ih =>
    obtain ⟨n, w⟩ := p
    by_cases hn : n = k <;> simp [setTR, getTR, hn, ih]

/-- C4: a tool execution that completes without error resets that tool's
retry counter to zero. General half: for any state, processing a call
whose execution succeeds ends with the counter at 0, one trace entry
recording the counter value passed in, and the result message appended.
Scenario half: a fail/succeed/fail run hands the tool retry-counter
values 0, 1, 0 on its three invocations and still completes normally. -/
theorem C4_retry_counter_reset :
    (∀ (cfg : AgentCfg) (rcfg : RunCfg) (st : LoopState) (tc : ToolCall)
        (tool : AgentTool) (r : ToolResult),
      rcfg.usageLimits = none →
      findTool cfg.tools tc.function.name = some tool →
      (∀ rc : RunContext, tool.execute rc tc.function.arguments = Except.ok r) →
      (processCalls cfg rcfg st [tc]).2 = none
      ∧ getTR (processCalls cfg rcfg st [tc]).1.toolRetries tool.name = 0
      ∧ (processCalls cfg rcfg st [tc]).1.execTrace
          = st.execTrace ++ [(tool.name, getTR st.toolRetries tool.name)]
      ∧ (processCalls cfg rcfg st [tc]).1.messages
          = st.messages ++ [NewToolResultMessage tc.id r])
    ∧ ((Run C4P).1.execTrace = [("t", 0), ("t", 1), ("t", 0)]
       ∧ (Run C4P).2 = Except.ok
          { output := (),
            messages := [NewUserMessage ("go"), C4callMsg ("1"),
              NewToolResultMessage "1" C4errRes, C4callMsg ("2"),
              NewToolResultMessage "2" C4okRes, C4callMsg ("3"),
              NewToolResultMessage "3" C4errRes, C1doneMsg],
            usage := zeroUsage }) := by
  constructor
  · intro cfg rcfg st tc tool r hlim hft hex
    refine ⟨?_, ?_, ?_, ?_⟩ <;>
      simp [processCalls, hft, hex, toolCallsLimitHit, hlim, getTR_setTR]
  · exact ⟨rfl, rfl⟩

/-- C4 witness: the reset half applied at a concrete always-succeeding
tool, from a state whose counter for the tool is 2. -/
theorem C4_retry_counter_reset_witness :
    (processCalls (AgentNew [C4wtool] 0 0 false) C2rcfg
        { messages := [], usage := zeroUsage, toolRetries := [("w", 2)],
          requestCount := 0, successfulToolCalls := 0, outputRetryCount := 0,
          execTrace := [] } [C4wtc]).2 = none
    ∧ getTR (processCalls (AgentNew [C4wtool] 0 0 false) C2rcfg
        { messages := [], usage := zeroUsage, toolRetries := [("w", 2)],
          requestCount := 0, successfulToolCalls := 0, outputRetryCount := 0,
          execTrace := [] } [C4wtc]).1.toolRetries "w" = 0 :=
  ⟨(C4_retry_counter_reset.1 (AgentNew [C4wtool] 0 0 false) C2rcfg
      { messages := [], usage := zeroUsage, toolRetries := [("w", 2)],
        requestCount := 0, successfulToolCalls := 0, outputRetryCount := 0,
        execTrace := [] } C4wtc C4wtool C4okRes rfl rfl (fun _ => rfl)).1,
   (C4_retry_counter_reset.1 (AgentNew [C4wtool] 0 0 false) C2rcfg
      { messages := [], usage := zeroUsage, toolRetries := [("w", 2)],
        requestCount := 0, successfulToolCalls := 0, outputRetryCount := 0,
        execTrace := [] } C4wtc C4wtool C4okRes rfl rfl (fun _ => rfl)).2.1⟩

theorem processCalls_requestCount (cfg : AgentCfg) (rcfg : RunCfg)
    (l : List ToolCall) (st : LoopState) :
    (processCalls cfg rcfg st l).1.requestCount = st.requestCount := by
  induction l generalizing st with
  | nil => rfl
  | cons tc rest ih =>
    rw [processCalls]
    cases hft : findTool cfg.tools tc.function.name with
    | none => rfl
    | some tool =>
      simp only []
      split
      · split
        · rfl
        · rw [ih]
      · rfl
      · split
        · rfl
        · rw [ih]

theorem runIter_requestCount_le {TOut : Type} (P : RunParams TOut) (ul : UsageLimits)
    (hl : P.rcfg.usageLimits = some ul) (hpos : 0 < ul.requestLimit) :
    ∀ (fuel : Nat) (st : LoopState), st.requestCount ≤ ul.requestLimit →
      ((runIter P fuel st).1).requestCount ≤ ul.requestLimit := by
  intro fuel
  induction fuel with
  | zero => intro st hst; exact hst
  | succ fuel ih =>
    intro st hst
    rw [runIter]
    by_cases hhit : requestLimitHit P.rcfg st = true
    · rw [if_pos hhit]
      exact hst
    · rw [if_neg hhit]
      have hlt : st.requestCount < ul.requestLimit := by
        rw [requestLimitHit, hl] at hhit
        simp only [Bool.and_eq_true, decide_eq_true_eq, not_and, Nat.not_le] at hhit
        have := hhit (by exact hpos)
        omega
      have hsucc : st.requestCount + 1 ≤ ul.requestLimit := hlt
      cases hc : P.client st.requestCount with
      | error cerr =>
        simp only []
        by_cases hov : isOutputValidationErr cerr = true
        · rw [if_pos hov]
          by_cases hor : st.outputRetryCount ≥ getEffectiveOutputRetries P.cfg
          · rw [if_pos hor]
            exact hsucc
          · rw [if_neg hor]
            exact ih _ hsucc
        · rw [if_neg hov]
          exact hsucc
      | ok resp =>
        simp only []
        cases hch : resp.choices with
        | nil => exact hsucc
        | cons choice crest =>
          simp only []
          cases hm : choice.message with
          | none => exact hsucc
          | some msg =>
            simp only []
            by_cases hcl : completionLimitHit P.rcfg resp.usage = true
            · rw [if_pos hcl]
              exact hsucc
            · rw [if_neg hcl]
              by_cases hemp : msg.toolCalls.isEmpty = true
              · rw [if_pos hemp]
                by_cases hsc : choice.structuredContent ≠ ""
                · rw [if_pos hsc]
                  cases hdec : P.decodeOut choice.structuredContent with
                  | error e =>
                    simp only []
                    by_cases hor : st.outputRetryCount ≥ getEffectiveOutputRetries P.cfg
                    · rw [if_pos hor]
                      exact hsucc
                    · rw [if_neg hor]
                      exact ih _ hsucc
                  | ok res => exact hsucc
                · rw [if_neg hsc]
                  by_cases hos : P.cfg.hasOutputSchema = true
                  · rw [if_pos hos]
                    by_cases hor : st.outputRetryCount ≥ getEffectiveOutputRetries P.cfg
                    · rw [if_pos hor]
                      exact hsucc
                    · rw [if_neg hor]
                      exact ih _ hsucc
                  · rw [if_neg hos]
                    exact hsucc
              · rw [if_neg hemp]
                cases hpc : processCalls P.cfg P.rcfg
                    { st with
                        requestCount := st.requestCount + 1,
                        usage := match resp.usage with
                          | some u => addUsage { st with requestCount := st.requestCount + 1 }.usage u
                          | none => { st with requestCount := st.requestCount + 1 }.usage,
                        messages := st.messages ++ [msg] } msg.toolCalls with
                  | mk st4 oerr =>
                    cases oerr with
                    | some err =>
                      simp only [hpc]
                      have := processCalls_requestCount P.cfg P.rcfg msg.toolCalls
                        { st with
                            requestCount := st.requestCount + 1,
                            usage := match resp.usage with
                              | some u => addUsage { st with requestCount := st.requestCount + 1 }.usage u
                              | none => { st with requestCount := st.requestCount + 1 }.usage,
                            messages := st.messages ++ [msg] }
                      rw [hpc] at this
                      simp only [] at this
                      omega
                    | none =>
                      simp only [hpc]
                      apply ih
                      have := processCalls_requestCount P.cfg P.rcfg msg.toolCalls
                        { st with
                            requestCount := st.requestCount + 1,
                            usage := match resp.usage with
                              | some u => addUsage { st with requestCount := st.requestCount + 1 }.usage u
                              | none => { st with requestCount := st.requestCount + 1 }.usage,
                            messages := st.messages ++ [msg] }
                      rw [hpc] at this
                      simp only [] at this
                      omega

/-- C5: the request ceiling is a hard pre-check. General half: with a
configured limit R > 0, a run never exceeds R dispatches (the final
request count is at most R). Scenario half: with R = 3 and a model that
always keeps calling a tool, exactly 3 dispatches occur and the next
iteration fails with the request-limit usage error before issuing a 4th
call (request count still 3). -/
theorem C5_request_limit_precheck :
    (∀ {TOut : Type} (P : RunParams TOut) (ul : UsageLimits),
      P.rcfg.usageLimits = some ul → 0 < ul.requestLimit →
      ((Run P).1).requestCount ≤ ul.requestLimit)
    ∧ ((Run C5P).2 = Except.error (RunError.usageLimitExceeded "request_limit" 3 3)
       ∧ (Run C5P).1.requestCount = 3
       ∧ (Run C5P).1.execTrace = [("t", 0), ("t", 0), ("t", 0)]) := by
  constructor
  · intro TOut P ul hl hpos
    exact runIter_requestCount_le P ul hl hpos P.cfg.maxIterations _ (by simp; omega)
  · exact ⟨rfl, rfl, rfl⟩

/-- C5 witness: the bound applied to the concrete limit-3 run. -/
theorem C5_request_limit_precheck_witness :
    ((Run C5P).1).requestCount ≤ 3 :=
  C5_request_limit_precheck.1 C5P C5limits rfl (by decide)

/-- C3 (amended): with effective max-retries N and a tool that always
returns ModelRetry, and N below the iteration cap New fixes at 10, the
tool is invoked exactly N+1 times (with retry counters 0..N), the run
then fails fatally naming the tool, the limit N and the retry message,
and no transport dispatch follows the last invocation (request count is
exactly N+1). -/
theorem C3_budget_exhaustion :
    ∀ (N : Nat) (m : String), N < 10 →
      (Run (C3P N m)).2 = Except.error (RunError.toolMaxRetries "t" (N : Int) m)
      ∧ (Run (C3P N m)).1.execTrace = (List.range (N + 1)).map (fun i => ("t", (i : Int)))
      ∧ (Run (C3P N m)).1.requestCount = (N : Int) + 1 := by
  intro N m hN
  interval_cases N <;> exact ⟨rfl, rfl, rfl⟩

/-- C3 counterexample: at N = 10 the iteration cap (fixed at 10 by `New`)
fires first — the tool is invoked only 10 times, not N+1 = 11, and the
failure names the cap, not the tool. -/
theorem C3_budget_exhaustion_counterexample :
    (Run (C3P 10 "r")).2 = Except.error (RunError.maxIterations 10)
    ∧ (Run (C3P 10 "r")).1.execTrace.length = 10 := by
  exact ⟨rfl, rfl⟩

/-- C3 witness: the amended theorem at N = 2. -/
theorem C3_budget_exhaustion_witness :
    (Run (C3P 2 "try again")).2
      = Except.error (RunError.toolMaxRetries "t" 2 "try again")
    ∧ (Run (C3P 2 "try again")).1.execTrace = [("t", 0), ("t", 1), ("t", 2)] :=
  ⟨(C3_budget_exhaustion 2 "try again" (by decide)).1,
   by
    rw [(C3_budget_exhaustion 2 "try again" (by decide)).2.1]
    rfl⟩

end Elysia
